import Mathlib

/-!
Verification of the ROSIX workflow orchestration engine against its
specification.  The repository ships C interface headers
(`src/rosix.h`, `src/rosix_workflow.h`); data shapes and constants are
embedded from the headers, while the behavior of the declared
operations (whose implementation is not part of the source tree) is
modelled from the specification, with each such definition's doc
comment starting `Modelled from the spec:`.
-/

namespace Rosix

/-! ### Result codes, from `src/rosix.h` lines 30-40 -/

/-- Result code `ROSIX_SUCCESS` from `src/rosix.h`. -/
def ROSIX_SUCCESS : Int := 0

/-- Result code `ROSIX_ERROR` from `src/rosix.h`. -/
def ROSIX_ERROR : Int := -1

/-- Result code `ROSIX_INVALID_HANDLE` from `src/rosix.h`. -/
def ROSIX_INVALID_HANDLE : Int := -2

/-- Result code `ROSIX_PERMISSION_DENIED` from `src/rosix.h`. -/
def ROSIX_PERMISSION_DENIED : Int := -3

/-- Result code `ROSIX_NOT_FOUND` from `src/rosix.h`. -/
def ROSIX_NOT_FOUND : Int := -4

/-- Result code `ROSIX_ALREADY_EXISTS` from `src/rosix.h`. -/
def ROSIX_ALREADY_EXISTS : Int := -5

/-- Result code `ROSIX_TIMEOUT` from `src/rosix.h`. -/
def ROSIX_TIMEOUT : Int := -6

/-- Result code `ROSIX_INVALID_PARAM` from `src/rosix.h`. -/
def ROSIX_INVALID_PARAM : Int := -7

/-- Result code `ROSIX_OUT_OF_MEMORY` from `src/rosix.h`. -/
def ROSIX_OUT_OF_MEMORY : Int := -8

/-- Result code `ROSIX_NOT_SUPPORTED` from `src/rosix.h`. -/
def ROSIX_NOT_SUPPORTED : Int := -9

/-- The nine defined error codes of `src/rosix.h`, in declaration order. -/
def rosixErrorCodes : List Int :=
  [ROSIX_ERROR, ROSIX_INVALID_HANDLE, ROSIX_PERMISSION_DENIED, ROSIX_NOT_FOUND,
   ROSIX_ALREADY_EXISTS, ROSIX_TIMEOUT, ROSIX_INVALID_PARAM, ROSIX_OUT_OF_MEMORY,
   ROSIX_NOT_SUPPORTED]

/-! ### Workflow data model, from `src/rosix_workflow.h`

`ROSIX_Task` (lines 33-41) carries a task name, an array of (at most 8)
dependency task names, an executor function pointer with an opaque
context, a timeout, a retry count and a description.  The executor and
context are not serializable data; following the spec (section 9) they
are supplied to the engine separately as an outcome oracle, and
`TaskDef` keeps the data fields. -/

structure TaskDef where
  task_name : String
  dependencies : List String
  timeout_seconds : Int
  retry_count : Nat
  description : String
deriving DecidableEq

/-- `ROSIX_Workflow` from `src/rosix_workflow.h` lines 46-53. -/
structure Workflow where
  name : String
  tasks : List TaskDef
  description : String
  enabled : Bool
  version : String
deriving DecidableEq

/-- The names of the tasks of a workflow definition, in declaration order. -/
def taskNames (wf : Workflow) : List String :=
  wf.tasks.map (fun t => t.task_name)

/-- Dependency relation of a definition: `DepRel wf a b` holds when some task
named `a` lists `b` among its dependencies. -/
def DepRel (wf : Workflow) (a b : String) : Prop :=
  ∃ t ∈ wf.tasks, t.task_name = a ∧ b ∈ t.dependencies

instance (wf : Workflow) (a b : String) : Decidable (DepRel wf a b) := by
  unfold DepRel; infer_instance

/-- A definition is acyclic when no task transitively depends on itself. -/
def Acyclic (wf : Workflow) : Prop :=
  ∀ a, ¬ Relation.TransGen (DepRel wf) a a

/-- A definition is fully resolvable when every dependency names an existing
task of the same definition. -/
def Resolvable (wf : Workflow) : Prop :=
  ∀ t ∈ wf.tasks, ∀ d ∈ t.dependencies, d ∈ taskNames wf

instance (wf : Workflow) : Decidable (Resolvable wf) := by
  unfold Resolvable; infer_instance

/-- Error taxonomy of the engine (spec section 7); the graph-validation
errors carry the task names the spec assigns to them. -/
inductive WErr where
  | NotFound
  | AlreadyExists
  | InvalidParam
  | CyclicDependency (taskA taskB : String)
  | UnresolvedDependency (task missingDep : String)
deriving DecidableEq

/-- First dependency (in declaration order) naming a nonexistent task,
together with the task that declares it. -/
def findUnresolved (wf : Workflow) : Option (String × String) :=
  wf.tasks.findSome? (fun t =>
    t.dependencies.findSome? (fun d =>
      if d ∈ taskNames wf then none else some (t.task_name, d)))

/-- Follow the successor function `f` from `cur`, accumulating the visited
nodes, until a node repeats (returning it) or `f` gives out. -/
def chase (f : String → Option String) : Nat → String → List String → Option String
  | 0, _, _ => none
  | fuel + 1, cur, seen =>
    if cur ∈ seen then some cur
    else
      match f cur with
      | some d => chase f fuel d (cur :: seen)
      | none => none

/-- All dependencies of `t` are already processed. -/
def depsDone (done : List String) (t : TaskDef) : Prop :=
  ∀ d ∈ t.dependencies, d ∈ done

instance (done : List String) (t : TaskDef) : Decidable (depsDone done t) := by
  unfold depsDone; infer_instance

/-- For a task name `x` still unprocessed, pick its first dependency that is
not yet processed. -/
def pickDep (remaining : List TaskDef) (done : List String) (x : String) : Option String :=
  (remaining.find? (fun t => decide (t.task_name = x))).bind
    (fun t => t.dependencies.find? (fun d => decide (d ∉ done)))

/-- Build the `CyclicDependency` error reported when Kahn's algorithm gets
stuck: walk from the first remaining task along unprocessed dependencies
until a node repeats; the repeating node lies on a cycle. -/
def cycleErr (remaining : List TaskDef) (done : List String) : WErr :=
  match remaining with
  | [] => WErr.CyclicDependency "" ""
  | t :: _ =>
    match chase (pickDep remaining done) (remaining.length + 1) t.task_name [] with
    | some r => WErr.CyclicDependency r ((pickDep remaining done r).getD "")
    | none => WErr.CyclicDependency t.task_name ""

/-- Kahn's algorithm main loop: repeatedly move every task whose dependencies
are all processed into the processed set; getting stuck means a cycle. -/
def kahnLoop : Nat → List TaskDef → List String → Except WErr Unit
  | 0, remaining, done =>
    if remaining.isEmpty then Except.ok () else Except.error (cycleErr remaining done)
  | fuel + 1, remaining, done =>
    if remaining.isEmpty then Except.ok ()
    else if (remaining.filter (fun t => decide (depsDone done t))).isEmpty then
      Except.error (cycleErr remaining done)
    else
      kahnLoop fuel (remaining.filter (fun t => decide (¬ depsDone done t)))
        (done ++ (remaining.filter (fun t => decide (depsDone done t))).map
          (fun t => t.task_name))

/-- Modelled from the spec: the body of `rosix_workflow_validate_dependencies`
(declared in `src/rosix_workflow.h` lines 226-232, implementation not in the
source tree).  Spec section 4.1: a dependency naming a nonexistent task yields
`UnresolvedDependency(task, missingDep)`; otherwise a topological sort (Kahn's
algorithm) runs and a stuck state yields `CyclicDependency(taskA, taskB)`. -/
def validate_dependencies (wf : Workflow) : Except WErr Unit :=
  match findUnresolved wf with
  | some (t, d) => Except.error (WErr.UnresolvedDependency t d)
  | none => kahnLoop wf.tasks.length wf.tasks []

/-- A definition store, owning named workflow definitions. -/
abbrev Store := List Workflow

/-- Look up a workflow definition by name. -/
def findWf (s : Store) (nm : String) : Option Workflow :=
  s.find? (fun w => decide (w.name = nm))

/-- Modelled from the spec: `rosix_workflow_validate_dependencies` itself
(declared in `src/rosix_workflow.h` lines 226-232): look the definition up by
name and validate its dependency graph. -/
def rosix_workflow_validate_dependencies (s : Store) (nm : String) : Except WErr Unit :=
  match findWf s nm with
  | none => Except.error WErr.NotFound
  | some wf => validate_dependencies wf

/-! ### Execution scheduler

Modelled from the spec, sections 4.2 and 4.3: per-execution task state
machine with dependency-gated dispatch, default failure policy (a failed
dependency skips all descendants) and per-task retry policy.  Work
functions (the `ROSIX_TaskExecutor` pointer plus opaque context of
`src/rosix_workflow.h` lines 28, 36-37) are supplied as a deterministic
outcome oracle mapping a task name and a 0-based attempt index to
whether that attempt succeeds; an attempt that times out counts as a
failed attempt (spec section 4.2 step 3). -/

/-- Per-task status (spec section 4.2); `Ready` and `Running` are the
transient dispatch states. -/
inductive TStatus where
  | Pending
  | Ready
  | Running
  | Succeeded
  | Failed
  | Skipped
deriving DecidableEq

/-- Execution status reached when the run terminates (spec section 4.2). -/
inductive WStatus where
  | Completed
  | Failed
  | Stopped
deriving DecidableEq

/-- Deterministic work-function oracle: task name and attempt index to
success of that attempt. -/
def Outcomes : Type := String → Nat → Bool

/-- `TaskRunState` of the spec data model: the task spec together with its
status and accumulated attempt count. -/
structure TaskState where
  task : TaskDef
  status : TStatus
  attempts : Nat

/-- Modelled from the spec: the TaskRunner retry loop (spec section 4.2
step 4 and section 4.3).  Starting at attempt index `i`, run attempts until
one succeeds or `retriesLeft` further attempts are exhausted; return the
total attempt count so far and whether the task succeeded. -/
def runFrom (out : Nat → Bool) : Nat → Nat → Nat × Bool
  | i, 0 => (i + 1, out i)
  | i, retriesLeft + 1 => if out i then (i + 1, true) else runFrom out (i + 1) retriesLeft

/-- Run a task's work function under its retry policy: at most
`retry_count + 1` attempts. -/
def runAttempts (out : Nat → Bool) (retries : Nat) : Nat × Bool :=
  runFrom out 0 retries

/-- Status of the task named `nm` in the current run state. -/
def lookupStatus (sts : List TaskState) (nm : String) : Option TStatus :=
  (sts.find? (fun ts => decide (ts.task.task_name = nm))).map (fun ts => ts.status)

/-- Some dependency of `t` ended `Failed` or `Skipped`, so the default
failure policy skips `t`. -/
def someDepFailed (sts : List TaskState) (t : TaskDef) : Prop :=
  ∃ d ∈ t.dependencies,
    lookupStatus sts d = some TStatus.Failed ∨ lookupStatus sts d = some TStatus.Skipped

instance (sts : List TaskState) (t : TaskDef) : Decidable (someDepFailed sts t) := by
  unfold someDepFailed; infer_instance

/-- Every dependency of `t` ended `Succeeded`, so `t` is ready to dispatch. -/
def depsSucceeded (sts : List TaskState) (t : TaskDef) : Prop :=
  ∀ d ∈ t.dependencies, lookupStatus sts d = some TStatus.Succeeded

instance (sts : List TaskState) (t : TaskDef) : Decidable (depsSucceeded sts t) := by
  unfold depsSucceeded; infer_instance

/-- A pending task the coordinator can act on: skip it (failed dependency)
or dispatch it (all dependencies succeeded). -/
def actionable (sts : List TaskState) (ts : TaskState) : Prop :=
  ts.status = TStatus.Pending ∧ (someDepFailed sts ts.task ∨ depsSucceeded sts ts.task)

instance (sts : List TaskState) (ts : TaskState) : Decidable (actionable sts ts) := by
  unfold actionable; infer_instance

/-- Resolve one actionable task: skip it under the default failure policy,
or run it under its retry policy and record the outcome. -/
def resolveTask (out : Outcomes) (sts : List TaskState) (ts : TaskState) : TaskState :=
  if someDepFailed sts ts.task then
    { ts with status := TStatus.Skipped }
  else
    let r := runAttempts (out ts.task.task_name) ts.task.retry_count
    { ts with status := if r.2 then TStatus.Succeeded else TStatus.Failed, attempts := r.1 }

/-- Resolve the first actionable task of `l` (declaration order, the spec's
stable tie-break), where `all` is the whole current state. -/
def stepList (out : Outcomes) (all : List TaskState) : List TaskState → Option (List TaskState)
  | [] => none
  | ts :: rest =>
    if actionable all ts then some (resolveTask out all ts :: rest)
    else
      match stepList out all rest with
      | none => none
      | some l => some (ts :: l)

/-- One iteration of the dispatch loop: resolve the first actionable task,
or report quiescence. -/
def stepExec (out : Outcomes) (sts : List TaskState) : Option (List TaskState) :=
  stepList out sts sts

/-- Dispatch loop: iterate until quiescent or out of fuel. -/
def runSched (out : Outcomes) : Nat → List TaskState → List TaskState
  | 0, sts => sts
  | fuel + 1, sts =>
    match stepExec out sts with
    | none => sts
    | some sts' => runSched out fuel sts'

/-- Initial run state: every task `Pending` with no attempts. -/
def initStates (wf : Workflow) : List TaskState :=
  wf.tasks.map (fun t => { task := t, status := TStatus.Pending, attempts := 0 })

/-- Modelled from the spec: a full execution of a workflow definition
(`rosix_workflow_start` of `src/rosix_workflow.h` lines 139-147 driven to a
terminal state), returning the final per-task run states. -/
def execWorkflow (wf : Workflow) (out : Outcomes) : List TaskState :=
  runSched out wf.tasks.length (initStates wf)

/-- Overall execution result (spec section 4.2 step 6): `Completed` when
every task succeeded, otherwise `Failed`. -/
def overallResult (sts : List TaskState) : WStatus :=
  if ∀ ts ∈ sts, ts.status = TStatus.Succeeded then WStatus.Completed else WStatus.Failed

/-- `ROSIX_TaskResult` data (`src/rosix_workflow.h` lines 71-78), with the
attempt count recorded for the task. -/
structure TaskResultM where
  task_name : String
  status : TStatus
  attempts : Nat
deriving DecidableEq

/-- `ROSIX_WorkflowResult` data (`src/rosix_workflow.h` lines 83-90). -/
structure ExecResultM where
  overall_result : WStatus
  task_results : List TaskResultM
deriving DecidableEq

/-- Fold the final run states into the recorded execution result. -/
def mkResult (sts : List TaskState) : ExecResultM :=
  { overall_result := overallResult sts,
    task_results := sts.map (fun ts => { task_name := ts.task.task_name,
                                         status := ts.status, attempts := ts.attempts }) }

/-! ### Pause and resume control signals (spec sections 4.2 and 5) -/

/-- Control signals consumed at the top of each dispatch loop iteration. -/
inductive Ctl where
  | pause
  | resume
deriving DecidableEq

/-- Effect of one control signal on the paused flag. -/
def applyCtl (_paused : Bool) : Ctl → Bool
  | Ctl.pause => true
  | Ctl.resume => false

/-- Live execution state: paused flag plus per-task run states. -/
structure CState where
  paused : Bool
  sts : List TaskState

/-- Modelled from the spec: the dispatch loop with asynchronous control
signals (`rosix_workflow_pause` and `rosix_workflow_resume` of
`src/rosix_workflow.h` lines 157-171).  `ctl i` is the batch of signals
that arrived before iteration `i`; they are consumed at the top of the
iteration; while paused no new task is dispatched. -/
def runSchedC (out : Outcomes) (ctl : Nat → List Ctl) : Nat → Nat → CState → CState
  | 0, _, st => st
  | fuel + 1, i, st =>
    let p := (ctl i).foldl applyCtl st.paused
    if p then runSchedC out ctl fuel (i + 1) { paused := p, sts := st.sts }
    else
      match stepExec out st.sts with
      | none => { paused := p, sts := st.sts }
      | some sts' => runSchedC out ctl fuel (i + 1) { paused := p, sts := sts' }

/-- A control schedule delivering `pause` immediately followed by `resume`
before iteration `k`, and nothing else. -/
def pauseResumeAt (k : Nat) : Nat → List Ctl :=
  fun i => if i = k then [Ctl.pause, Ctl.resume] else []

/-- The empty control schedule: a run with no pause. -/
def noCtl : Nat → List Ctl := fun _ => []

/-- Execution under a control schedule, returning the final result. -/
def execWorkflowC (wf : Workflow) (out : Outcomes) (ctl : Nat → List Ctl) (fuel : Nat) :
    ExecResultM :=
  mkResult (runSchedC out ctl fuel 0 { paused := false, sts := initStates wf }).sts

/-! ### Definition store mutations (spec sections 4.1 and 7)

The C API mutates a process-wide definition store and returns a result
code; the embedding passes the store explicitly, each operation returning
the new store together with the error, if any. -/

/-- A fresh, empty workflow definition (spec section 4.1 `create`). -/
def emptyWorkflow (nm : String) : Workflow :=
  { name := nm, tasks := [], description := "", enabled := true, version := "" }

/-- Replace the definition named `nm` in the store. -/
def storeReplace (s : Store) (nm : String) (wf' : Workflow) : Store :=
  s.map (fun w => if w.name = nm then wf' else w)

/-- Append a task to a definition. -/
def wfAddTask (wf : Workflow) (t : TaskDef) : Workflow :=
  { wf with tasks := wf.tasks ++ [t] }

/-- Replace the task named `tn` of a definition. -/
def wfUpdateTask (wf : Workflow) (tn : String) (t : TaskDef) : Workflow :=
  { wf with tasks := wf.tasks.map (fun x => if x.task_name = tn then t else x) }

/-- Modelled from the spec: `rosix_workflow_create` (declared in
`src/rosix_workflow.h` lines 96-102): fails `AlreadyExists` if the name is
taken. -/
def rosix_workflow_create (s : Store) (nm : String) : Store × Option WErr :=
  if (findWf s nm).isSome then (s, some WErr.AlreadyExists)
  else (s ++ [emptyWorkflow nm], none)

/-- Modelled from the spec: `rosix_workflow_add_task` (declared in
`src/rosix_workflow.h` lines 104-111): fails `NotFound` for an unknown
workflow, `AlreadyExists` for a duplicate task name, `InvalidParam` for a
task spec exceeding the 8 dependency slots of `ROSIX_Task`, re-runs graph
validation, and commits only on success (spec section 7: a rejected
mutation is never left half-applied). -/
def rosix_workflow_add_task (s : Store) (nm : String) (t : TaskDef) : Store × Option WErr :=
  match findWf s nm with
  | none => (s, some WErr.NotFound)
  | some wf =>
    if ∃ x ∈ wf.tasks, x.task_name = t.task_name then (s, some WErr.AlreadyExists)
    else if 8 < t.dependencies.length then (s, some WErr.InvalidParam)
    else
      match validate_dependencies (wfAddTask wf t) with
      | Except.error e => (s, some e)
      | Except.ok _ => (storeReplace s nm (wfAddTask wf t), none)

/-- Modelled from the spec: `rosix_workflow_remove_task` (declared in
`src/rosix_workflow.h` lines 113-121). -/
def rosix_workflow_remove_task (s : Store) (nm tn : String) : Store × Option WErr :=
  match findWf s nm with
  | none => (s, some WErr.NotFound)
  | some wf =>
    if ∃ x ∈ wf.tasks, x.task_name = tn then
      (storeReplace s nm { wf with tasks := wf.tasks.filter (fun x => decide (x.task_name ≠ tn)) },
       none)
    else (s, some WErr.NotFound)

/-- Modelled from the spec: `rosix_workflow_update_task` (declared in
`src/rosix_workflow.h` lines 123-133): fails `NotFound` for an unknown
workflow or task, `AlreadyExists` when renaming onto an existing task,
`InvalidParam` for more than 8 dependencies, re-runs graph validation, and
commits only on success. -/
def rosix_workflow_update_task (s : Store) (nm tn : String) (t : TaskDef) :
    Store × Option WErr :=
  match findWf s nm with
  | none => (s, some WErr.NotFound)
  | some wf =>
    if ¬ ∃ x ∈ wf.tasks, x.task_name = tn then (s, some WErr.NotFound)
    else if t.task_name ≠ tn ∧ ∃ x ∈ wf.tasks, x.task_name = t.task_name then
      (s, some WErr.AlreadyExists)
    else if 8 < t.dependencies.length then (s, some WErr.InvalidParam)
    else
      match validate_dependencies (wfUpdateTask wf tn t) with
      | Except.error e => (s, some e)
      | Except.ok _ => (storeReplace s nm (wfUpdateTask wf tn t), none)

/-- Modelled from the spec: `rosix_workflow_delete` (declared in
`src/rosix_workflow.h` lines 358-364). -/
def rosix_workflow_delete (s : Store) (nm : String) : Store × Option WErr :=
  if (findWf s nm).isSome then (s.filter (fun w => decide (w.name ≠ nm)), none)
  else (s, some WErr.NotFound)

/-- A definition-store mutation request. -/
inductive StoreOp where
  | create (nm : String)
  | addTask (nm : String) (t : TaskDef)
  | removeTask (nm tn : String)
  | updateTask (nm tn : String) (t : TaskDef)
  | deleteWf (nm : String)

/-- Apply one mutation request, keeping the resulting store. -/
def applyOp (s : Store) : StoreOp → Store
  | StoreOp.create nm => (rosix_workflow_create s nm).1
  | StoreOp.addTask nm t => (rosix_workflow_add_task s nm t).1
  | StoreOp.removeTask nm tn => (rosix_workflow_remove_task s nm tn).1
  | StoreOp.updateTask nm tn t => (rosix_workflow_update_task s nm tn t).1
  | StoreOp.deleteWf nm => (rosix_workflow_delete s nm).1

/-- The store obtained by running a sequence of mutation requests from the
empty store created at engine start (spec section 9). -/
def runOps (ops : List StoreOp) : Store :=
  ops.foldl applyOp []

/-- Every task of every stored definition fits the 8 dependency slots of
`ROSIX_Task` (`src/rosix_workflow.h` line 35). -/
def DepCapOK (s : Store) : Prop :=
  ∀ wf ∈ s, ∀ t ∈ wf.tasks, t.dependencies.length ≤ 8

/-! ### History store (spec section 4.6)

`ROSIX_WorkflowResult` carries no workflow name, so the history store
keys its entries by the workflow name recorded with each result, as the
spec's `query(workflow_name, start_time, end_time)` requires. -/

/-- A recorded execution result together with its workflow name and start
time (`rosix_workflow_get_history` filters and orders by these). -/
structure HistEntry where
  execution_id : String
  workflow_name : String
  overall_result : WStatus
  start_time : Int
  total_duration : Int
deriving DecidableEq

/-- Ordering of history entries by start time. -/
def startLe (a b : HistEntry) : Prop :=
  a.start_time ≤ b.start_time

instance : DecidableRel startLe := fun a b => Int.decLe a.start_time b.start_time

instance : IsTotal HistEntry startLe :=
  ⟨fun a b => Int.le_total a.start_time b.start_time⟩

instance : IsTrans HistEntry startLe :=
  ⟨fun _ _ _ hab hbc => Int.le_trans hab hbc⟩

/-- Modelled from the spec: the history store's append-only `record`,
keeping entries ordered by start time. -/
def record (h : List HistEntry) (e : HistEntry) : List HistEntry :=
  List.orderedInsert startLe e h

/-- The history store after recording a batch of execution results. -/
def buildHistory (l : List HistEntry) : List HistEntry :=
  l.foldl record []

/-- An entry matches a history query when its workflow name agrees and its
start time falls in the closed range. -/
def matchesQuery (nm : String) (t0 t1 : Int) (e : HistEntry) : Prop :=
  e.workflow_name = nm ∧ t0 ≤ e.start_time ∧ e.start_time ≤ t1

instance (nm : String) (t0 t1 : Int) (e : HistEntry) : Decidable (matchesQuery nm t0 t1 e) := by
  unfold matchesQuery; infer_instance

/-- Modelled from the spec: `rosix_workflow_get_history` (declared in
`src/rosix_workflow.h` lines 207-220): the recorded results for the named
workflow whose start times fall in the range, ordered by start time
ascending, bounded by the caller-supplied maximum. -/
def rosix_workflow_get_history (h : List HistEntry) (nm : String) (t0 t1 : Int)
    (maxResults : Nat) : List HistEntry :=
  (h.filter (fun e => decide (matchesQuery nm t0 t1 e))).take maxResults

/-! ### JSON serialization (spec section 6)

The serialization collaborator's contract: a definition round-trips
through the serialized form preserving every data-model field. -/

/-- JSON values. -/
inductive Json where
  | str (s : String)
  | num (n : Int)
  | bool (b : Bool)
  | arr (xs : List Json)
  | obj (fields : List (String × Json))

/-- Encode one task of a definition. -/
def encodeTask (t : TaskDef) : Json :=
  Json.obj [("task_name", Json.str t.task_name),
            ("dependencies", Json.arr (t.dependencies.map Json.str)),
            ("timeout_seconds", Json.num t.timeout_seconds),
            ("retry_count", Json.num (Int.ofNat t.retry_count)),
            ("description", Json.str t.description)]

/-- Decode a list of JSON strings. -/
def decodeStrList : List Json → Option (List String)
  | [] => some []
  | Json.str s :: js => (decodeStrList js).map (fun l => s :: l)
  | _ => none

/-- Decode one task of a definition. -/
def decodeTask : Json → Option TaskDef
  | Json.obj [("task_name", Json.str nm),
              ("dependencies", Json.arr ds),
              ("timeout_seconds", Json.num ts),
              ("retry_count", Json.num rc),
              ("description", Json.str d)] =>
    (decodeStrList ds).bind (fun deps =>
      if 0 ≤ rc then
        some { task_name := nm, dependencies := deps, timeout_seconds := ts,
               retry_count := rc.toNat, description := d }
      else none)
  | _ => none

/-- Decode a list of tasks. -/
def decodeTasks : List Json → Option (List TaskDef)
  | [] => some []
  | j :: js => (decodeTask j).bind (fun t => (decodeTasks js).map (fun l => t :: l))

/-- Modelled from the spec: `rosix_workflow_export_json` (declared in
`src/rosix_workflow.h` lines 280-288): serialize every data-model field of
a definition. -/
def rosix_workflow_export_json (wf : Workflow) : Json :=
  Json.obj [("name", Json.str wf.name),
            ("tasks", Json.arr (wf.tasks.map encodeTask)),
            ("description", Json.str wf.description),
            ("enabled", Json.bool wf.enabled),
            ("version", Json.str wf.version)]

/-- Modelled from the spec: `rosix_workflow_import_json` (declared in
`src/rosix_workflow.h` lines 290-298): parse the serialized form back into
a definition. -/
def rosix_workflow_import_json : Json → Option Workflow
  | Json.obj [("name", Json.str nm),
              ("tasks", Json.arr tjs),
              ("description", Json.str d),
              ("enabled", Json.bool en),
              ("version", Json.str v)] =>
    (decodeTasks tjs).map (fun ts =>
      { name := nm, tasks := ts, description := d, enabled := en, version := v })
  | _ => none

/-- Number of tasks still `Pending` in a run state. -/
def pendingCount (sts : List TaskState) : Nat :=
  (sts.filter (fun ts => decide (ts.status = TStatus.Pending))).length

/-- For the name of a pending task, pick its first dependency whose task is
still pending. -/
def pendingDep (sts : List TaskState) (x : String) : Option String :=
  (sts.find? (fun ts => decide (ts.task.task_name = x))).bind
    (fun ts => ts.task.dependencies.find?
      (fun d => decide (lookupStatus sts d = some TStatus.Pending)))

/-- Scheduler invariant: the run state tracks exactly the definition's
tasks; no task is left in a transient dispatch state between iterations; a
dispatched (`Succeeded` or `Failed`) task had all dependencies succeeded; a
`Skipped` task has a failed or skipped dependency; and recorded outcomes
and attempt counts agree with the task's retry policy run against its
outcome oracle. -/
def SchedInv (wf : Workflow) (out : Outcomes) (sts : List TaskState) : Prop :=
  sts.map (fun ts => ts.task) = wf.tasks ∧
  (∀ ts ∈ sts, ts.status = TStatus.Pending ∨ ts.status = TStatus.Succeeded ∨
     ts.status = TStatus.Failed ∨ ts.status = TStatus.Skipped) ∧
  (∀ ts ∈ sts, ts.status = TStatus.Succeeded ∨ ts.status = TStatus.Failed →
     depsSucceeded sts ts.task) ∧
  (∀ ts ∈ sts, ts.status = TStatus.Skipped → someDepFailed sts ts.task) ∧
  (∀ ts ∈ sts, ts.status = TStatus.Succeeded →
     (runAttempts (out ts.task.task_name) ts.task.retry_count).2 = true) ∧
  (∀ ts ∈ sts, ts.status = TStatus.Failed →
     ts.attempts = (runAttempts (out ts.task.task_name) ts.task.retry_count).1 ∧
     (runAttempts (out ts.task.task_name) ts.task.retry_count).2 = false)

/-! ### Concrete example data -/

/-- Build a task spec with the given name, dependencies and retry count. -/
def mkTask (nm : String) (deps : List String) (retries : Nat) : TaskDef :=
  { task_name := nm, dependencies := deps, timeout_seconds := 30,
    retry_count := retries, description := "" }

/-- The spec's diamond scenario definition: tasks `A` (no dependencies),
`B` and `C` (each depending on `A`), `D2` (depending on `B` and `C`). -/
def wfDiamond : Workflow :=
  { name := "D",
    tasks := [mkTask "A" [] 1, mkTask "B" ["A"] 0, mkTask "C" ["A"] 0,
              mkTask "D2" ["B", "C"] 0],
    description := "", enabled := true, version := "1" }

/-- A definition whose two tasks depend on each other. -/
def wfCyc : Workflow :=
  { name := "C", tasks := [mkTask "A" ["B"] 0, mkTask "B" ["A"] 0],
    description := "", enabled := true, version := "1" }

/-- A definition with both a dependency cycle (`A` and `B` depend on each
other) and a dependency naming the nonexistent task `X`. -/
def wfCycUnres : Workflow :=
  { name := "CU", tasks := [mkTask "A" ["B", "X"] 0, mkTask "B" ["A"] 0],
    description := "", enabled := true, version := "1" }

/-- A definition with the single task `A` and `retry_count` 2. -/
def wfSingle : Workflow :=
  { name := "S", tasks := [mkTask "A" [] 2],
    description := "", enabled := true, version := "1" }

/-- An outcome oracle under which every attempt of every task fails. -/
def outNone : Outcomes := fun _ _ => false

/-- An outcome oracle under which every attempt of every task succeeds. -/
def outAll : Outcomes := fun _ _ => true

/-- A recorded run of workflow `D` starting at time 3. -/
def histE1 : HistEntry :=
  { execution_id := "e1", workflow_name := "D", overall_result := WStatus.Completed,
    start_time := 3, total_duration := 1 }

/-- A recorded run of workflow `D` starting at time 5. -/
def histE2 : HistEntry :=
  { execution_id := "e2", workflow_name := "D", overall_result := WStatus.Completed,
    start_time := 5, total_duration := 1 }

/-! ## Theorems -/

/-- C10: `ROSIX_SUCCESS` equals 0; the nine error codes of `src/rosix.h`
are pairwise-distinct negative integers; hence a nonnegative return value
unambiguously indicates success, and for count-returning listing
operations such as `rosix_workflow_list_running` no valid (nonnegative)
count collides with the error value `ROSIX_ERROR = -1`. -/
theorem c10_result_codes :
    ROSIX_SUCCESS = 0 ∧
    rosixErrorCodes.Pairwise (fun a b => a ≠ b) ∧
    (∀ c ∈ rosixErrorCodes, c < 0) ∧
    (∀ n : Nat, (n : Int) ∉ rosixErrorCodes) ∧
    (∀ n : Nat, (n : Int) ≠ ROSIX_ERROR) := by
  have hneg : ∀ c ∈ rosixErrorCodes, c < 0 := by decide
  refine ⟨rfl, by decide, hneg, ?_, ?_⟩
  · intro n hn
    exact absurd (hneg _ hn) (not_lt.mpr (Int.natCast_nonneg n))
  · intro n h
    have hlt : (n : Int) < 0 := by rw [h]; decide
    exact absurd hlt (not_lt.mpr (Int.natCast_nonneg n))

/-- Witness for C10 at concrete values: `ROSIX_NOT_FOUND` is negative and
the valid count 3 is not an error code. -/
theorem c10_result_codes_witness :
    ROSIX_NOT_FOUND < 0 ∧ ((3 : Nat) : Int) ∉ rosixErrorCodes :=
  ⟨c10_result_codes.2.2.1 ROSIX_NOT_FOUND (by decide), c10_result_codes.2.2.2.1 3⟩

/-- Decoding inverts encoding on lists of strings. -/
theorem decodeStrList_encode (l : List String) :
    decodeStrList (l.map Json.str) = some l := by
  induction l with
  | nil => rfl
  | cons s l ih => simp [decodeStrList, ih]

/-- Decoding inverts encoding on a task spec. -/
theorem decodeTask_encode (t : TaskDef) : decodeTask (encodeTask t) = some t := by
  simp [decodeTask, encodeTask, decodeStrList_encode, Int.toNat_ofNat]

/-- Decoding inverts encoding on lists of task specs. -/
theorem decodeTasks_encode (ts : List TaskDef) :
    decodeTasks (ts.map encodeTask) = some ts := by
  induction ts with
  | nil => rfl
  | cons t ts ih => simp [decodeTasks, decodeTask_encode, ih]

/-- C8: exporting any workflow definition to the serialized JSON form and
re-importing it yields a definition equal to the original in every
data-model field (name, tasks with their dependencies, timeouts and retry
counts, descriptions, version, enabled flag). -/
theorem c8_json_round_trip (wf : Workflow) :
    rosix_workflow_import_json (rosix_workflow_export_json wf) = some wf := by
  simp [rosix_workflow_import_json, rosix_workflow_export_json, decodeTasks_encode]

/-- Either `rosix_workflow_add_task` leaves the store unchanged or it
reports no error. -/
theorem addTask_cases (s : Store) (nm : String) (t : TaskDef) :
    (rosix_workflow_add_task s nm t).1 = s ∨ (rosix_workflow_add_task s nm t).2 = none := by
  unfold rosix_workflow_add_task
  cases findWf s nm with
  | none => exact Or.inl rfl
  | some wf =>
    dsimp only
    split
    · exact Or.inl rfl
    · split
      · exact Or.inl rfl
      · split
        · exact Or.inl rfl
        · exact Or.inr rfl

/-- Either `rosix_workflow_update_task` leaves the store unchanged or it
reports no error. -/
theorem updateTask_cases (s : Store) (nm tn : String) (t : TaskDef) :
    (rosix_workflow_update_task s nm tn t).1 = s ∨
      (rosix_workflow_update_task s nm tn t).2 = none := by
  unfold rosix_workflow_update_task
  cases findWf s nm with
  | none => exact Or.inl rfl
  | some wf =>
    dsimp only
    split
    · exact Or.inl rfl
    · split
      · exact Or.inl rfl
      · split
        · exact Or.inl rfl
        · split
          · exact Or.inl rfl
          · exact Or.inr rfl

/-- C6: a call to `rosix_workflow_add_task` or `rosix_workflow_update_task`
that returns an error leaves the stored definitions exactly as they were
before the call: a rejected mutation is never left half-applied. -/
theorem c6_rejected_mutation_atomic (s : Store) (nm tn : String) (t t' : TaskDef) :
    (∀ e, (rosix_workflow_add_task s nm t).2 = some e →
      (rosix_workflow_add_task s nm t).1 = s) ∧
    (∀ e, (rosix_workflow_update_task s nm tn t').2 = some e →
      (rosix_workflow_update_task s nm tn t').1 = s) := by
  constructor
  · intro e he
    rcases addTask_cases s nm t with h | h
    · exact h
    · rw [h] at he; exact absurd he (by simp)
  · intro e he
    rcases updateTask_cases s nm tn t' with h | h
    · exact h
    · rw [h] at he; exact absurd he (by simp)

/-- Witness for C6: rejected mutations on a store holding only the diamond
definition leave it untouched; adding a task to the unknown workflow `Z`
and updating the unknown task `Z` of `D` are both rejected unchanged. -/
theorem c6_rejected_mutation_atomic_witness :
    (rosix_workflow_add_task [wfDiamond] "Z" (mkTask "T" [] 0)).1 = [wfDiamond] ∧
    (rosix_workflow_update_task [wfDiamond] "D" "Z" (mkTask "T" [] 0)).1 = [wfDiamond] :=
  ⟨(c6_rejected_mutation_atomic [wfDiamond] "Z" "Z" (mkTask "T" [] 0) (mkTask "T" [] 0)).1
      WErr.NotFound (by decide),
   (c6_rejected_mutation_atomic [wfDiamond] "D" "Z" (mkTask "T" [] 0) (mkTask "T" [] 0)).2
      WErr.NotFound (by decide)⟩

/-- Replacing one definition preserves the dependency cap provided the
replacement satisfies it. -/
theorem storeReplace_depCapOK (s : Store) (nm : String) (wf' : Workflow)
    (h : DepCapOK s) (h' : ∀ u ∈ wf'.tasks, u.dependencies.length ≤ 8) :
    DepCapOK (storeReplace s nm wf') := by
  intro w hw u hu
  rcases List.mem_map.mp hw with ⟨w0, hw0, hweq⟩
  by_cases hn : w0.name = nm
  · rw [if_pos hn] at hweq
    exact h' u (hweq ▸ hu)
  · rw [if_neg hn] at hweq
    exact h w0 hw0 u (hweq ▸ hu)

/-- Every definition-store mutation preserves the dependency cap. -/
theorem applyOp_depCapOK (s : Store) (op : StoreOp) (h : DepCapOK s) :
    DepCapOK (applyOp s op) := by
  cases op with
  | create nm =>
    simp only [applyOp, rosix_workflow_create]
    by_cases hf : (findWf s nm).isSome
    · rw [if_pos hf]; exact h
    · rw [if_neg hf]
      intro wf hwf t ht
      rcases List.mem_append.mp hwf with hl | hr
      · exact h wf hl t ht
      · rw [List.mem_singleton.mp hr] at ht
        simp [emptyWorkflow] at ht
  | addTask nm t0 =>
    cases hf : findWf s nm with
    | none => simp only [applyOp, rosix_workflow_add_task, hf]; exact h
    | some wf =>
      simp only [applyOp, rosix_workflow_add_task, hf]
      by_cases hex : ∃ x ∈ wf.tasks, x.task_name = t0.task_name
      · rw [if_pos hex]; exact h
      · rw [if_neg hex]
        by_cases hlen : 8 < t0.dependencies.length
        · rw [if_pos hlen]; exact h
        · rw [if_neg hlen]
          cases hv : validate_dependencies (wfAddTask wf t0) with
          | error e => exact h
          | ok u =>
            refine storeReplace_depCapOK s nm _ h ?_
            intro u hu
            unfold wfAddTask at hu
            rcases List.mem_append.mp hu with h1 | h2
            · exact h wf (List.mem_of_find?_eq_some hf) u h1
            · rw [List.mem_singleton.mp h2]
              exact Nat.le_of_not_lt hlen
  | removeTask nm tn =>
    cases hf : findWf s nm with
    | none => simp only [applyOp, rosix_workflow_remove_task, hf]; exact h
    | some wf =>
      simp only [applyOp, rosix_workflow_remove_task, hf]
      by_cases hex : ∃ x ∈ wf.tasks, x.task_name = tn
      · rw [if_pos hex]
        refine storeReplace_depCapOK s nm _ h ?_
        intro u hu
        exact h wf (List.mem_of_find?_eq_some hf) u (List.mem_of_mem_filter hu)
      · rw [if_neg hex]; exact h
  | updateTask nm tn t0 =>
    cases hf : findWf s nm with
    | none => simp only [applyOp, rosix_workflow_update_task, hf]; exact h
    | some wf =>
      simp only [applyOp, rosix_workflow_update_task, hf]
      by_cases hex : ∃ x ∈ wf.tasks, x.task_name = tn
      · rw [if_neg (not_not_intro hex)]
        by_cases hcol : t0.task_name ≠ tn ∧ ∃ x ∈ wf.tasks, x.task_name = t0.task_name
        · rw [if_pos hcol]; exact h
        · rw [if_neg hcol]
          by_cases hlen : 8 < t0.dependencies.length
          · rw [if_pos hlen]; exact h
          · rw [if_neg hlen]
            cases hv : validate_dependencies (wfUpdateTask wf tn t0) with
            | error e => exact h
            | ok u =>
              refine storeReplace_depCapOK s nm _ h ?_
              intro u hu
              unfold wfUpdateTask at hu
              rcases List.mem_map.mp hu with ⟨x, hx, hxeq⟩
              by_cases hxn : x.task_name = tn
              · rw [if_pos hxn] at hxeq
                rw [← hxeq]
                exact Nat.le_of_not_lt hlen
              · rw [if_neg hxn] at hxeq
                rw [← hxeq]
                exact h wf (List.mem_of_find?_eq_some hf) x hx
      · rw [if_pos hex]; exact h
  | deleteWf nm =>
    simp only [applyOp, rosix_workflow_delete]
    by_cases hf : (findWf s nm).isSome
    · rw [if_pos hf]
      intro wf hwf
      exact h wf (List.mem_of_mem_filter hwf)
    · rw [if_neg hf]; exact h

/-- Running any prefix of mutations from a store satisfying the dependency
cap keeps satisfying it. -/
theorem foldl_applyOp_depCapOK (ops : List StoreOp) :
    ∀ s, DepCapOK s → DepCapOK (ops.foldl applyOp s) := by
  induction ops with
  | nil => intro s h; exact h
  | cons op ops ih =>
    intro s h
    exact ih (applyOp s op) (applyOp_depCapOK s op h)

/-- C9: the store built by any sequence of definition mutations from the
empty store never holds a task with more than 8 dependencies:
`rosix_workflow_add_task` and `rosix_workflow_update_task` reject task
specs exceeding the 8 dependency name slots of `ROSIX_Task`. -/
theorem c9_dependency_cap (ops : List StoreOp) : DepCapOK (runOps ops) := by
  unfold runOps
  refine foldl_applyOp_depCapOK ops [] ?_
  intro wf hwf
  exact absurd hwf (List.not_mem_nil wf)

/-- Recording keeps the history ordered by start time. -/
theorem record_sorted (h : List HistEntry) (e : HistEntry)
    (hs : List.Sorted startLe h) : List.Sorted startLe (record h e) :=
  List.Sorted.orderedInsert e h hs

/-- Folding records over a sorted history keeps it sorted. -/
theorem foldl_record_sorted (l : List HistEntry) :
    ∀ h, List.Sorted startLe h → List.Sorted startLe (l.foldl record h) := by
  induction l with
  | nil => intro h hs; exact hs
  | cons e l ih => intro h hs; exact ih (record h e) (record_sorted h e hs)

/-- The history store is always ordered by start time. -/
theorem buildHistory_sorted (l : List HistEntry) :
    List.Sorted startLe (buildHistory l) :=
  foldl_record_sorted l [] List.sorted_nil

/-- The history store holds exactly the recorded entries. -/
theorem foldl_record_perm (l : List HistEntry) :
    ∀ h, (l.foldl record h).Perm (h ++ l) := by
  induction l with
  | nil => intro h; simp
  | cons e l ih =>
    intro h
    refine ((ih (record h e)).trans ?_)
    refine (List.Perm.append_right l (List.perm_orderedInsert startLe e h)).trans ?_
    exact List.perm_middle.symm

/-- The history store is a permutation of the recorded batch. -/
theorem buildHistory_perm (l : List HistEntry) : (buildHistory l).Perm l := by
  have h := foldl_record_perm l []
  rwa [List.nil_append] at h

/-- C7: the history query returns exactly the recorded execution results of
the named workflow whose start times fall in the requested range, ordered
by start time ascending and bounded by the caller-supplied maximum; the
returned count is the number of matching entries capped at that maximum,
and when the matches fit the bound every matching recorded entry is
returned. -/
theorem c7_history_query (l : List HistEntry) (nm : String) (t0 t1 : Int)
    (maxResults : Nat) :
    (buildHistory l).Perm l ∧
    List.Sorted startLe (rosix_workflow_get_history (buildHistory l) nm t0 t1 maxResults) ∧
    (∀ e ∈ rosix_workflow_get_history (buildHistory l) nm t0 t1 maxResults,
       matchesQuery nm t0 t1 e ∧ e ∈ l) ∧
    (rosix_workflow_get_history (buildHistory l) nm t0 t1 maxResults).length =
      min maxResults
        ((buildHistory l).filter (fun e => decide (matchesQuery nm t0 t1 e))).length ∧
    (((buildHistory l).filter (fun e => decide (matchesQuery nm t0 t1 e))).length ≤ maxResults →
      ∀ e ∈ l, matchesQuery nm t0 t1 e →
        e ∈ rosix_workflow_get_history (buildHistory l) nm t0 t1 maxResults) := by
  refine ⟨buildHistory_perm l, ?_, ?_, ?_, ?_⟩
  · exact List.Pairwise.sublist (List.take_sublist _ _)
      (List.Pairwise.filter _ (buildHistory_sorted l))
  · intro e he
    have hf : e ∈ (buildHistory l).filter (fun e => decide (matchesQuery nm t0 t1 e)) :=
      (List.take_sublist _ _).subset he
    rcases List.mem_filter.mp hf with ⟨hmem, hdec⟩
    exact ⟨of_decide_eq_true hdec, (buildHistory_perm l).subset hmem⟩
  · exact List.length_take _ _
  · intro hle e hel hm
    unfold rosix_workflow_get_history
    rw [List.take_of_length_le hle]
    exact List.mem_filter.mpr ⟨(buildHistory_perm l).symm.subset hel, decide_eq_true hm⟩

/-- Witness for C7 at the spec's scenario: after recording two runs of
workflow `D` started at times 5 and 3, a query over the range 0 to 10
returns exactly the 2 results, ordered by start time. -/
theorem c7_history_query_witness :
    (rosix_workflow_get_history (buildHistory [histE2, histE1]) "D" 0 10 10).length = 2 ∧
    List.Sorted startLe (rosix_workflow_get_history (buildHistory [histE2, histE1]) "D" 0 10 10) ∧
    rosix_workflow_get_history (buildHistory [histE2, histE1]) "D" 0 10 10 = [histE1, histE2] :=
  ⟨by rw [(c7_history_query [histE2, histE1] "D" 0 10 10).2.2.2.1]; decide,
   (c7_history_query [histE2, histE1] "D" 0 10 10).2.1,
   by decide⟩

/-- Delivering `pause` immediately followed by `resume` leaves the paused
flag clear at every iteration. -/
theorem pauseResumeAt_no_net (k : Nat) :
    ∀ i, (pauseResumeAt k i).foldl applyCtl false = false := by
  intro i
  unfold pauseResumeAt
  by_cases h : i = k
  · rw [if_pos h]; rfl
  · rw [if_neg h]; rfl

/-- The empty control schedule leaves the paused flag clear. -/
theorem noCtl_no_net : ∀ i, (noCtl i).foldl applyCtl false = false :=
  fun _ => rfl

/-- Two control schedules with no net pause effect drive the dispatch loop
through identical states. -/
theorem runSchedC_no_net_pause (out : Outcomes) (ctl1 ctl2 : Nat → List Ctl)
    (h1 : ∀ i, (ctl1 i).foldl applyCtl false = false)
    (h2 : ∀ i, (ctl2 i).foldl applyCtl false = false) :
    ∀ (fuel i : Nat) (sts : List TaskState),
      runSchedC out ctl1 fuel i { paused := false, sts := sts } =
        runSchedC out ctl2 fuel i { paused := false, sts := sts } := by
  intro fuel
  induction fuel with
  | zero => intro i sts; rfl
  | succ f ih =>
    intro i sts
    simp only [runSchedC, h1, h2, Bool.false_eq_true, if_false]
    cases hs : stepExec out sts with
    | none => rfl
    | some sts' => exact ih (i + 1) sts'

/-- Under the empty control schedule the dispatch loop is the plain
dispatch loop. -/
theorem runSchedC_noCtl (out : Outcomes) :
    ∀ (fuel i : Nat) (sts : List TaskState),
      (runSchedC out noCtl fuel i { paused := false, sts := sts }).sts =
        runSched out fuel sts := by
  intro fuel
  induction fuel with
  | zero => intro i sts; rfl
  | succ f ih =>
    intro i sts
    simp only [runSchedC, runSched, noCtl, List.foldl, Bool.false_eq_true, if_false]
    cases hs : stepExec out sts with
    | none => rfl
    | some sts' => exact ih (i + 1) sts'

/-- C5: for a deterministic workflow (outcome oracles are pure functions),
an execution in which `rosix_workflow_pause` is called and
`rosix_workflow_resume` is called immediately afterwards with no
intervening time produces a final execution result identical to that of
the same workflow run with no pause. -/
theorem c5_pause_resume_identity (wf : Workflow) (out : Outcomes) (k fuel : Nat) :
    execWorkflowC wf out (pauseResumeAt k) fuel =
      mkResult (runSched out fuel (initStates wf)) ∧
    execWorkflowC wf out noCtl fuel = mkResult (runSched out fuel (initStates wf)) := by
  constructor
  · unfold execWorkflowC
    rw [runSchedC_no_net_pause out (pauseResumeAt k) noCtl (pauseResumeAt_no_net k)
      noCtl_no_net fuel 0 (initStates wf)]
    rw [runSchedC_noCtl out fuel 0 (initStates wf)]
  · unfold execWorkflowC
    rw [runSchedC_noCtl out fuel 0 (initStates wf)]

/-- In a reverse-edge chain, every later element reaches the head. -/
theorem chain_transGen {R : String → String → Prop} :
    ∀ (x : String) (xs : List String), List.Chain' (fun a b => R b a) (x :: xs) →
      ∀ y ∈ xs, Relation.TransGen R y x := by
  intro x xs
  induction xs generalizing x with
  | nil => intro _ y hy; exact absurd hy (List.not_mem_nil y)
  | cons s rest ih =>
    intro hch y hy
    rw [List.chain'_cons] at hch
    rcases hch with ⟨hsx, hch'⟩
    rcases List.mem_cons.mp hy with rfl | hy'
    · exact Relation.TransGen.single hsx
    · exact (ih s hch' y hy').tail hsx

/-- A node returned by the chase lies on a cycle of the edge relation
underlying the successor function. -/
theorem chase_sound {R : String → String → Prop} (f : String → Option String)
    (hf : ∀ x y, f x = some y → R x y) :
    ∀ (fuel : Nat) (cur : String) (seen : List String),
      List.Chain' (fun a b => R b a) (cur :: seen) →
      ∀ r, chase f fuel cur seen = some r → Relation.TransGen R r r := by
  intro fuel
  induction fuel with
  | zero =>
    intro cur seen _ r h
    exact absurd h (by simp [chase])
  | succ fu ih =>
    intro cur seen hch r h
    unfold chase at h
    by_cases hmem : cur ∈ seen
    · rw [if_pos hmem] at h
      cases h
      exact chain_transGen cur seen hch cur hmem
    · rw [if_neg hmem] at h
      cases hfc : f cur with
      | none => rw [hfc] at h; exact absurd h (by simp)
      | some d =>
        rw [hfc] at h
        refine ih d (cur :: seen) ?_ r h
        rw [List.chain'_cons]
        exact ⟨hf cur d hfc, hch⟩

/-- With enough fuel, chasing a total successor function inside a finite
node set finds a repeat. -/
theorem chase_complete (N : List String) (f : String → Option String)
    (hcl : ∀ x ∈ N, ∃ y, f x = some y ∧ y ∈ N) :
    ∀ (fuel : Nat) (cur : String) (seen : List String),
      cur ∈ N → seen.Nodup → (∀ s ∈ seen, s ∈ N) →
      N.length < fuel + seen.length →
      (chase f fuel cur seen).isSome := by
  intro fuel
  induction fuel with
  | zero =>
    intro cur seen hcur hnd hsub hlen
    have hle : seen.length ≤ N.length := (hnd.subperm hsub).length_le
    omega
  | succ fu ih =>
    intro cur seen hcur hnd hsub hlen
    unfold chase
    by_cases hmem : cur ∈ seen
    · rw [if_pos hmem]; rfl
    · rw [if_neg hmem]
      rcases hcl cur hcur with ⟨d, hfd, hdN⟩
      rw [hfd]
      refine ih d (cur :: seen) hdN (List.nodup_cons.mpr ⟨hmem, hnd⟩) ?_ ?_
      · intro s hs
        rcases List.mem_cons.mp hs with rfl | hs'
        · exact hcur
        · exact hsub s hs'
      · simp only [List.length_cons]
        omega

/-- A nonempty finite node set closed under a successor function whose
steps are edges contains a node on a cycle. -/
theorem cycle_of_closure {R : String → String → Prop} (N : List String)
    (f : String → Option String)
    (hf : ∀ x y, f x = some y → R x y)
    (hcl : ∀ x ∈ N, ∃ y, f x = some y ∧ y ∈ N)
    (x0 : String) (hx0 : x0 ∈ N) :
    ∃ r, Relation.TransGen R r r := by
  have hsome := chase_complete N f hcl (N.length + 1) x0 [] hx0 List.nodup_nil
    (fun s hs => absurd hs (List.not_mem_nil s)) (by simp)
  rcases Option.isSome_iff_exists.mp hsome with ⟨r, hr⟩
  exact ⟨r, chase_sound f hf (N.length + 1) x0 [] (List.chain'_singleton x0) r hr⟩

/-- A node on a cycle has an edge to a node on a cycle. -/
theorem cycle_step {R : String → String → Prop} (c : String)
    (h : Relation.TransGen R c c) : ∃ d, R c d ∧ Relation.TransGen R d d := by
  rcases Relation.TransGen.head'_iff.mp h with ⟨d, hcd, hdc⟩
  exact ⟨d, hcd, Relation.TransGen.tail' hdc hcd⟩

/-- A node on a dependency cycle is the name of some task. -/
theorem cycle_node_mem (wf : Workflow) (c : String)
    (h : Relation.TransGen (DepRel wf) c c) : c ∈ taskNames wf := by
  rcases cycle_step c h with ⟨d, hcd, _⟩
  rcases hcd with ⟨t, ht, hname, _⟩
  exact List.mem_map.mpr ⟨t, ht, hname⟩

/-- In a stuck state every unprocessed task name has an unprocessed
dependency, itself the name of an unprocessed task. -/
theorem stuck_pickDep (wf : Workflow) (remaining : List TaskDef) (done : List String)
    (hsub : ∀ t ∈ remaining, t ∈ wf.tasks)
    (hres : Resolvable wf)
    (hcov : ∀ y ∈ taskNames wf, y ∈ done ∨ y ∈ remaining.map (fun t => t.task_name))
    (hstuck : ∀ t ∈ remaining, ¬ depsDone done t) :
    ∀ x ∈ remaining.map (fun t => t.task_name),
      ∃ y, pickDep remaining done x = some y ∧
        y ∈ remaining.map (fun t => t.task_name) := by
  intro x hx
  rcases List.mem_map.mp hx with ⟨t0, ht0, hname⟩
  have hfs : (remaining.find? (fun t => decide (t.task_name = x))).isSome :=
    List.find?_isSome.mpr ⟨t0, ht0, decide_eq_true hname⟩
  rcases Option.isSome_iff_exists.mp hfs with ⟨t, hft⟩
  have htmem : t ∈ remaining := List.mem_of_find?_eq_some hft
  have hndep : ¬ ∀ d ∈ t.dependencies, d ∈ done := hstuck t htmem
  push_neg at hndep
  rcases hndep with ⟨d0, hd0, hd0done⟩
  have hds : (t.dependencies.find? (fun d => decide (d ∉ done))).isSome :=
    List.find?_isSome.mpr ⟨d0, hd0, decide_eq_true hd0done⟩
  rcases Option.isSome_iff_exists.mp hds with ⟨d, hfd⟩
  have hdmem : d ∈ t.dependencies := List.mem_of_find?_eq_some hfd
  have hpd := List.find?_some hfd
  have hddone : d ∉ done := of_decide_eq_true hpd
  refine ⟨d, ?_, ?_⟩
  · unfold pickDep
    rw [hft]
    exact hfd
  · have hdn : d ∈ taskNames wf := hres t (hsub t htmem) d hdmem
    rcases hcov d hdn with h | h
    · exact absurd h hddone
    · exact h

/-- Every step the picker takes is a dependency edge of the definition. -/
theorem pickDep_edge (wf : Workflow) (remaining : List TaskDef) (done : List String)
    (hsub : ∀ t ∈ remaining, t ∈ wf.tasks) :
    ∀ x y, pickDep remaining done x = some y → DepRel wf x y := by
  intro x y h
  unfold pickDep at h
  cases hft : remaining.find? (fun t => decide (t.task_name = x)) with
  | none => rw [hft] at h; exact absurd h (by simp)
  | some t =>
    rw [hft] at h
    have hpt := List.find?_some hft
    exact ⟨t, hsub t (List.mem_of_find?_eq_some hft),
      of_decide_eq_true hpt, List.mem_of_find?_eq_some h⟩

/-- A stuck state of Kahn's algorithm reports a `CyclicDependency` error
naming a task that lies on a dependency cycle. -/
theorem cycleErr_spec (wf : Workflow) (t : TaskDef) (rest : List TaskDef)
    (done : List String)
    (hsub : ∀ u ∈ t :: rest, u ∈ wf.tasks)
    (hres : Resolvable wf)
    (hcov : ∀ y ∈ taskNames wf, y ∈ done ∨ y ∈ (t :: rest).map (fun u => u.task_name))
    (hstuck : ∀ u ∈ t :: rest, ¬ depsDone done u) :
    ∃ a b, cycleErr (t :: rest) done = WErr.CyclicDependency a b ∧
      Relation.TransGen (DepRel wf) a a := by
  have hcl := stuck_pickDep wf (t :: rest) done hsub hres hcov hstuck
  have hx0 : t.task_name ∈ (t :: rest).map (fun u => u.task_name) :=
    List.mem_map.mpr ⟨t, List.mem_cons_self t rest, rfl⟩
  have hsome := chase_complete ((t :: rest).map (fun u => u.task_name))
    (pickDep (t :: rest) done) hcl ((t :: rest).length + 1) t.task_name [] hx0
    List.nodup_nil (fun s hs => absurd hs (List.not_mem_nil s))
    (by simp)
  rcases Option.isSome_iff_exists.mp hsome with ⟨r, hr⟩
  refine ⟨r, (pickDep (t :: rest) done r).getD "", ?_, ?_⟩
  · unfold cycleErr
    dsimp only
    rw [hr]
  · exact chase_sound (pickDep (t :: rest) done)
      (pickDep_edge wf (t :: rest) done hsub) ((t :: rest).length + 1) t.task_name []
      (List.chain'_singleton t.task_name) r hr

/-- Kahn's algorithm succeeds on every resolvable acyclic state. -/
theorem kahnLoop_ok (wf : Workflow) (hres : Resolvable wf) (hacy : Acyclic wf) :
    ∀ (fuel : Nat) (remaining : List TaskDef) (done : List String),
      (∀ t ∈ remaining, t ∈ wf.tasks) →
      (∀ y ∈ taskNames wf, y ∈ done ∨ y ∈ remaining.map (fun t => t.task_name)) →
      remaining.length ≤ fuel →
      kahnLoop fuel remaining done = Except.ok () := by
  intro fuel
  induction fuel with
  | zero =>
    intro remaining done hsub hcov hlen
    have h0 : remaining = [] := List.length_eq_zero.mp (Nat.le_zero.mp hlen)
    subst h0
    rfl
  | succ fu ih =>
    intro remaining done hsub hcov hlen
    cases remaining with
    | nil => rfl
    | cons t rest =>
      by_cases hready :
          ((t :: rest).filter (fun u => decide (depsDone done u))).isEmpty = true
      · have hstuck : ∀ u ∈ t :: rest, ¬ depsDone done u := by
          intro u hu hdd
          have hnone := List.filter_eq_nil_iff.mp (List.isEmpty_iff.mp hready) u hu
          exact hnone (decide_eq_true hdd)
        rcases cycleErr_spec wf t rest done hsub hres hcov hstuck with ⟨a, b, _, hcyc⟩
        exact absurd hcyc (hacy a)
      · have hstep : kahnLoop (fu + 1) (t :: rest) done =
            kahnLoop fu ((t :: rest).filter (fun u => decide (¬ depsDone done u)))
              (done ++ ((t :: rest).filter (fun u => decide (depsDone done u))).map
                (fun u => u.task_name)) := by
          conv_lhs => rw [kahnLoop]
          rw [if_neg (by simp), if_neg hready]
        rw [hstep]
        have hpos : 0 < ((t :: rest).filter (fun u => decide (depsDone done u))).length :=
          List.length_pos.mpr (fun h => hready (by rw [h]; rfl))
        have hfun : (fun u => decide (¬ depsDone done u)) =
            (fun u => !decide (depsDone done u)) := by
          funext u
          exact decide_not
        have hsplit : ((t :: rest).filter (fun u => decide (depsDone done u))).length +
            ((t :: rest).filter (fun u => decide (¬ depsDone done u))).length =
            (t :: rest).length := by
          rw [hfun]
          have hperm :=
            (List.filter_append_perm (fun u => decide (depsDone done u)) (t :: rest)).length_eq
          simpa [List.length_append] using hperm
        refine ih _ _ ?_ ?_ ?_
        · intro u hu
          exact hsub u (List.mem_of_mem_filter hu)
        · intro y hy
          rcases hcov y hy with hyd | hyr
          · exact Or.inl (List.mem_append.mpr (Or.inl hyd))
          · rcases List.mem_map.mp hyr with ⟨u, hu, hn⟩
            by_cases hdd : depsDone done u
            · refine Or.inl (List.mem_append.mpr (Or.inr ?_))
              exact List.mem_map.mpr
                ⟨u, List.mem_filter.mpr ⟨hu, decide_eq_true hdd⟩, hn⟩
            · refine Or.inr ?_
              exact List.mem_map.mpr
                ⟨u, List.mem_filter.mpr ⟨hu, decide_eq_true hdd⟩, hn⟩
        · omega

/-- On a resolvable definition with unique task names and a dependency
cycle, Kahn's algorithm ends stuck and reports a `CyclicDependency` error
naming a task on a cycle. -/
theorem kahnLoop_cyclic (wf : Workflow) (hres : Resolvable wf)
    (hnd : (taskNames wf).Nodup) :
    ∀ (fuel : Nat) (remaining : List TaskDef) (done : List String),
      (∀ t ∈ remaining, t ∈ wf.tasks) →
      (∀ y ∈ taskNames wf, y ∈ done ∨ y ∈ remaining.map (fun t => t.task_name)) →
      (∀ y ∈ done, y ∉ remaining.map (fun t => t.task_name)) →
      remaining.length ≤ fuel →
      (∀ c, Relation.TransGen (DepRel wf) c c →
        c ∈ remaining.map (fun t => t.task_name)) →
      (∃ c, Relation.TransGen (DepRel wf) c c) →
      ∃ a b, kahnLoop fuel remaining done = Except.error (WErr.CyclicDependency a b) ∧
        Relation.TransGen (DepRel wf) a a := by
  intro fuel
  induction fuel with
  | zero =>
    intro remaining done hsub hcov hdisj hlen hcrem hcyc
    rcases hcyc with ⟨c, hc⟩
    have h0 : remaining = [] := List.length_eq_zero.mp (Nat.le_zero.mp hlen)
    subst h0
    exact absurd (hcrem c hc) (by simp)
  | succ fu ih =>
    intro remaining done hsub hcov hdisj hlen hcrem hcyc
    cases remaining with
    | nil =>
      rcases hcyc with ⟨c, hc⟩
      exact absurd (hcrem c hc) (by simp)
    | cons t rest =>
      have huniq : ∀ u1 ∈ wf.tasks, ∀ u2 ∈ wf.tasks, u1.task_name = u2.task_name →
          u1 = u2 := fun u1 h1 u2 h2 he => List.inj_on_of_nodup_map hnd h1 h2 he
      by_cases hready :
          ((t :: rest).filter (fun u => decide (depsDone done u))).isEmpty = true
      · have hstuck : ∀ u ∈ t :: rest, ¬ depsDone done u := by
          intro u hu hdd
          have hnone := List.filter_eq_nil_iff.mp (List.isEmpty_iff.mp hready) u hu
          exact hnone (decide_eq_true hdd)
        rcases cycleErr_spec wf t rest done hsub hres hcov hstuck with ⟨a, b, herr, hcycA⟩
        refine ⟨a, b, ?_, hcycA⟩
        conv_lhs => rw [kahnLoop]
        rw [if_neg (by simp), if_pos hready, herr]
      · have hstep : kahnLoop (fu + 1) (t :: rest) done =
            kahnLoop fu ((t :: rest).filter (fun u => decide (¬ depsDone done u)))
              (done ++ ((t :: rest).filter (fun u => decide (depsDone done u))).map
                (fun u => u.task_name)) := by
          conv_lhs => rw [kahnLoop]
          rw [if_neg (by simp), if_neg hready]
        rw [hstep]
        have hpos : 0 < ((t :: rest).filter (fun u => decide (depsDone done u))).length :=
          List.length_pos.mpr (fun h => hready (by rw [h]; rfl))
        have hfun : (fun u => decide (¬ depsDone done u)) =
            (fun u => !decide (depsDone done u)) := by
          funext u
          exact decide_not
        have hsplit : ((t :: rest).filter (fun u => decide (depsDone done u))).length +
            ((t :: rest).filter (fun u => decide (¬ depsDone done u))).length =
            (t :: rest).length := by
          rw [hfun]
          have hperm :=
            (List.filter_append_perm (fun u => decide (depsDone done u)) (t :: rest)).length_eq
          simpa [List.length_append] using hperm
        have hcrem' : ∀ c, Relation.TransGen (DepRel wf) c c →
            c ∈ ((t :: rest).filter (fun u => decide (¬ depsDone done u))).map
              (fun u => u.task_name) := by
          intro c hc
          rcases List.mem_map.mp (hcrem c hc) with ⟨tc, htc, htcname⟩
          by_cases hdd : depsDone done tc
          · exfalso
            rcases cycle_step c hc with ⟨d, hcd, hdcyc⟩
            rcases hcd with ⟨t2, ht2, ht2name, hdmem⟩
            have ht2eq : t2 = tc :=
              huniq t2 ht2 tc (hsub tc htc) (by rw [ht2name, htcname])
            have hddone : d ∈ done := hdd d (ht2eq ▸ hdmem)
            exact absurd (hcrem d hdcyc) (hdisj d hddone)
          · exact List.mem_map.mpr
              ⟨tc, List.mem_filter.mpr ⟨htc, decide_eq_true hdd⟩, htcname⟩
        refine ih _ _ ?_ ?_ ?_ ?_ hcrem' hcyc
        · intro u hu
          exact hsub u (List.mem_of_mem_filter hu)
        · intro y hy
          rcases hcov y hy with hyd | hyr
          · exact Or.inl (List.mem_append.mpr (Or.inl hyd))
          · rcases List.mem_map.mp hyr with ⟨u, hu, hn⟩
            by_cases hdd : depsDone done u
            · refine Or.inl (List.mem_append.mpr (Or.inr ?_))
              exact List.mem_map.mpr
                ⟨u, List.mem_filter.mpr ⟨hu, decide_eq_true hdd⟩, hn⟩
            · refine Or.inr ?_
              exact List.mem_map.mpr
                ⟨u, List.mem_filter.mpr ⟨hu, decide_eq_true hdd⟩, hn⟩
        · intro y hy hy'
          rcases List.mem_map.mp hy' with ⟨u2, hu2, hn2⟩
          have hu2f := List.mem_filter.mp hu2
          rcases List.mem_append.mp hy with hyd | hyr
          · exact hdisj y hyd (List.mem_map.mpr ⟨u2, hu2f.1, hn2⟩)
          · rcases List.mem_map.mp hyr with ⟨u1, hu1, hn1⟩
            have hu1f := List.mem_filter.mp hu1
            have hueq : u1 = u2 :=
              huniq u1 (hsub u1 hu1f.1) u2 (hsub u2 hu2f.1) (hn1.trans hn2.symm)
            have hd1 : depsDone done u1 := of_decide_eq_true hu1f.2
            have hd2 : ¬ depsDone done u2 := of_decide_eq_true hu2f.2
            exact hd2 (hueq ▸ hd1)
        · omega

/-- On a resolvable definition the unresolved check finds nothing. -/
theorem findUnresolved_eq_none (wf : Workflow) (hres : Resolvable wf) :
    findUnresolved wf = none := by
  unfold findUnresolved
  rw [List.findSome?_eq_none_iff]
  intro t ht
  rw [List.findSome?_eq_none_iff]
  intro d hd
  rw [if_pos (hres t ht d hd)]

/-- Validation of a resolvable acyclic definition succeeds. -/
theorem validate_ok (wf : Workflow) (hres : Resolvable wf) (hacy : Acyclic wf) :
    validate_dependencies wf = Except.ok () := by
  unfold validate_dependencies
  rw [findUnresolved_eq_none wf hres]
  exact kahnLoop_ok wf hres hacy wf.tasks.length wf.tasks []
    (fun t ht => ht) (fun y hy => Or.inr hy) (Nat.le_refl _)

/-- Validation of a resolvable definition with unique task names and a
dependency cycle reports a `CyclicDependency` naming a task on a cycle. -/
theorem validate_cyclic (wf : Workflow) (hres : Resolvable wf)
    (hnd : (taskNames wf).Nodup) (hcyc : ∃ c, Relation.TransGen (DepRel wf) c c) :
    ∃ a b, validate_dependencies wf = Except.error (WErr.CyclicDependency a b) ∧
      Relation.TransGen (DepRel wf) a a := by
  unfold validate_dependencies
  rw [findUnresolved_eq_none wf hres]
  exact kahnLoop_cyclic wf hres hnd wf.tasks.length wf.tasks []
    (fun t ht => ht) (fun y hy => Or.inr hy) (fun y hy => absurd hy (List.not_mem_nil y))
    (Nat.le_refl _) (fun c hc => cycle_node_mem wf c hc) hcyc

/-- A definition passing validation is acyclic. -/
theorem acyclic_of_validate_ok (wf : Workflow) (hres : Resolvable wf)
    (hnd : (taskNames wf).Nodup) (hok : validate_dependencies wf = Except.ok ()) :
    Acyclic wf := by
  intro a ha
  rcases validate_cyclic wf hres hnd ⟨a, ha⟩ with ⟨x, y, herr, _⟩
  rw [hok] at herr
  exact absurd herr (by simp)

/-- A definition passing validation is fully resolvable. -/
theorem resolvable_of_validate_ok (wf : Workflow)
    (hok : validate_dependencies wf = Except.ok ()) : Resolvable wf := by
  intro t ht d hd
  by_contra hmem
  unfold validate_dependencies at hok
  cases hfu : findUnresolved wf with
  | some p =>
    rcases p with ⟨a, b⟩
    rw [hfu] at hok
    exact absurd hok (by simp)
  | none =>
    unfold findUnresolved at hfu
    have h1 := List.findSome?_eq_none_iff.mp hfu t ht
    have h2 := List.findSome?_eq_none_iff.mp h1 d hd
    rw [if_neg hmem] at h2
    exact absurd h2 (by simp)

/-- A definition with an unresolved dependency fails validation with
`UnresolvedDependency`. -/
theorem validate_unresolved (wf : Workflow) (hnres : ¬ Resolvable wf) :
    ∃ a b, validate_dependencies wf =
      Except.error (WErr.UnresolvedDependency a b) := by
  unfold validate_dependencies
  cases hfu : findUnresolved wf with
  | some p =>
    rcases p with ⟨a, b⟩
    exact ⟨a, b, rfl⟩
  | none =>
    exfalso
    apply hnres
    intro t ht d hd
    unfold findUnresolved at hfu
    have h1 := List.findSome?_eq_none_iff.mp hfu t ht
    have h2 := List.findSome?_eq_none_iff.mp h1 d hd
    by_cases hdn : d ∈ taskNames wf
    · exact hdn
    · rw [if_neg hdn] at h2
      exact absurd h2 (by simp)

/-- C1 counterexample: the definition `wfCycUnres`, stored under `CU`, has
the dependency cycle `A`, `B`, `A`, yet `rosix_workflow_validate_dependencies`
does not fail with `CyclicDependency`: the dependency `X` of `A` names no
task, and the `UnresolvedDependency` error is reported instead, refuting
the claim's cycle clause as stated. -/
theorem c1_counterexample :
    Relation.TransGen (DepRel wfCycUnres) "A" "A" ∧
    ¬ ∃ a b, rosix_workflow_validate_dependencies [wfCycUnres] "CU" =
      Except.error (WErr.CyclicDependency a b) := by
  constructor
  · exact Relation.TransGen.head (b := "B") (by decide)
      (Relation.TransGen.single (by decide))
  · rintro ⟨a, b, h⟩
    have hval : rosix_workflow_validate_dependencies [wfCycUnres] "CU" =
        Except.error (WErr.UnresolvedDependency "A" "X") := rfl
    rw [hval] at h
    exact absurd h (by simp)

/-- C1 (amended): for a definition registered in the store under the
queried name, with task names unique: (1) if its dependency graph is
acyclic and fully resolvable, `rosix_workflow_validate_dependencies`
returns success; (2) if it is fully resolvable and contains a cycle, it
fails with `CyclicDependency` naming a task on a cycle; (3) if some
dependency names a nonexistent task, it fails with
`UnresolvedDependency`; the unresolved check takes precedence when both
defects are present. -/
theorem c1_validate_dependencies (s : Store) (nm : String) (wf : Workflow)
    (hfind : findWf s nm = some wf) (hnd : (taskNames wf).Nodup) :
    (Resolvable wf → Acyclic wf →
      rosix_workflow_validate_dependencies s nm = Except.ok ()) ∧
    (Resolvable wf → (∃ c, Relation.TransGen (DepRel wf) c c) →
      ∃ a b, rosix_workflow_validate_dependencies s nm =
        Except.error (WErr.CyclicDependency a b) ∧
        Relation.TransGen (DepRel wf) a a) ∧
    (¬ Resolvable wf →
      ∃ a b, rosix_workflow_validate_dependencies s nm =
        Except.error (WErr.UnresolvedDependency a b)) := by
  have hw : rosix_workflow_validate_dependencies s nm = validate_dependencies wf := by
    unfold rosix_workflow_validate_dependencies
    rw [hfind]
  refine ⟨?_, ?_, ?_⟩
  · intro hres hacy
    rw [hw]
    exact validate_ok wf hres hacy
  · intro hres hcyc
    rw [hw]
    exact validate_cyclic wf hres hnd hcyc
  · intro hnres
    rw [hw]
    exact validate_unresolved wf hnres

/-- Witness for C1 at concrete stores: the diamond definition validates
successfully, and the two-task cycle definition is rejected with
`CyclicDependency`. -/
theorem c1_validate_dependencies_witness :
    rosix_workflow_validate_dependencies [wfDiamond] "D" = Except.ok () ∧
    ∃ a b, rosix_workflow_validate_dependencies [wfCyc] "C" =
      Except.error (WErr.CyclicDependency a b) := by
  constructor
  · exact (c1_validate_dependencies [wfDiamond] "D" wfDiamond rfl (by decide)).1
      (by decide)
      (acyclic_of_validate_ok wfDiamond (by decide) (by decide) rfl)
  · rcases (c1_validate_dependencies [wfCyc] "C" wfCyc rfl (by decide)).2.1
      (by decide)
      ⟨"A", Relation.TransGen.head (b := "B") (by decide)
        (Relation.TransGen.single (by decide))⟩
      with ⟨a, b, herr, _⟩
    exact ⟨a, b, herr⟩

/-- The retry loop on an always-failing work function runs through every
attempt and reports failure. -/
theorem runFrom_allFail (out : Nat → Bool) (hf : ∀ i, out i = false) :
    ∀ (n i : Nat), runFrom out i n = (i + n + 1, false) := by
  intro n
  induction n with
  | zero =>
    intro i
    unfold runFrom
    rw [hf i]
  | succ m ih =>
    intro i
    unfold runFrom
    rw [hf i]
    simp only [Bool.false_eq_true, if_false]
    rw [ih (i + 1)]
    refine congrArg (fun k => (k, false)) ?_
    omega

/-- A task whose work function fails on every attempt is attempted exactly
`retry_count + 1` times before being reported failed. -/
theorem runAttempts_allFail (out : Nat → Bool) (hf : ∀ i, out i = false) (n : Nat) :
    runAttempts out n = (n + 1, false) := by
  unfold runAttempts
  rw [runFrom_allFail out hf n 0]
  simp only [Nat.zero_add]

/-- The dispatch step is exhausted exactly on states with no actionable
task. -/
theorem stepList_none_iff (out : Outcomes) (all : List TaskState) :
    ∀ l, stepList out all l = none ↔ ∀ ts ∈ l, ¬ actionable all ts := by
  intro l
  induction l with
  | nil => simp [stepList]
  | cons ts rest ih =>
    unfold stepList
    by_cases ha : actionable all ts
    · rw [if_pos ha]
      constructor
      · intro h
        exact absurd h (by simp)
      · intro h
        exact absurd ha (h ts (List.mem_cons_self ts rest))
    · rw [if_neg ha]
      constructor
      · intro h u hu
        rcases List.mem_cons.mp hu with rfl | hu'
        · exact ha
        · cases hs : stepList out all rest with
          | none => exact (ih.mp hs) u hu'
          | some r => rw [hs] at h; exact absurd h (by simp)
      · intro h
        have hrest : stepList out all rest = none :=
          ih.mpr (fun u hu => h u (List.mem_cons_of_mem ts hu))
        rw [hrest]

/-- A successful dispatch step resolves exactly the first actionable task. -/
theorem stepList_some_spec (out : Outcomes) (all : List TaskState) :
    ∀ l l', stepList out all l = some l' →
      ∃ l1 ts l2, l = l1 ++ ts :: l2 ∧ actionable all ts ∧
        l' = l1 ++ resolveTask out all ts :: l2 := by
  intro l
  induction l with
  | nil => intro l' h; exact absurd h (by simp [stepList])
  | cons ts rest ih =>
    intro l' h
    unfold stepList at h
    by_cases ha : actionable all ts
    · rw [if_pos ha] at h
      refine ⟨[], ts, rest, rfl, ha, ?_⟩
      injection h with h'
      rw [← h']
      rfl
    · rw [if_neg ha] at h
      cases hs : stepList out all rest with
      | none => rw [hs] at h; exact absurd h (by simp)
      | some r =>
        rw [hs] at h
        injection h with h'
        rcases ih r hs with ⟨l1, u, l2, heq, hu, hr⟩
        refine ⟨ts :: l1, u, l2, by rw [heq]; rfl, hu, ?_⟩
        rw [← h', hr]
        rfl

/-- With unique task names, looking a member task up by name finds it. -/
theorem find?_name_of_mem (sts : List TaskState)
    (hnd : (sts.map (fun u => u.task.task_name)).Nodup) :
    ∀ ts ∈ sts,
      sts.find? (fun u => decide (u.task.task_name = ts.task.task_name)) = some ts := by
  induction sts with
  | nil => intro ts h; exact absurd h (List.not_mem_nil ts)
  | cons u rest ih =>
    intro ts hts
    simp only [List.map_cons, List.nodup_cons] at hnd
    rcases List.mem_cons.mp hts with rfl | hts'
    · exact List.find?_cons_of_pos _ (decide_eq_true rfl)
    · have hne : ¬ (u.task.task_name = ts.task.task_name) := by
        intro he
        exact hnd.1 (he ▸ List.mem_map.mpr ⟨ts, hts', rfl⟩)
      rw [List.find?_cons_of_neg _ (by simpa using hne)]
      exact ih hnd.2 ts hts'

/-- With unique task names the lookup of a member task gives its status. -/
theorem lookupStatus_of_mem (sts : List TaskState)
    (hnd : (sts.map (fun u => u.task.task_name)).Nodup)
    (ts : TaskState) (h : ts ∈ sts) :
    lookupStatus sts ts.task.task_name = some ts.status := by
  unfold lookupStatus
  rw [find?_name_of_mem sts hnd ts h]
  rfl

/-- A successful status lookup names a member task with that status. -/
theorem lookupStatus_some (sts : List TaskState) (nm : String) (st : TStatus)
    (h : lookupStatus sts nm = some st) :
    ∃ ts ∈ sts, ts.task.task_name = nm ∧ ts.status = st := by
  unfold lookupStatus at h
  cases hf : sts.find? (fun u => decide (u.task.task_name = nm)) with
  | none => rw [hf] at h; exact absurd h (by simp)
  | some u =>
    rw [hf] at h
    have hpu := List.find?_some hf
    have hst : u.status = st := by simpa using h
    exact ⟨u, List.mem_of_find?_eq_some hf, of_decide_eq_true hpu, hst⟩

/-- The run state's names are the definition's task names. -/
theorem names_eq (wf : Workflow) (sts : List TaskState)
    (hmap : sts.map (fun ts => ts.task) = wf.tasks) :
    sts.map (fun u => u.task.task_name) = taskNames wf := by
  unfold taskNames
  rw [← hmap, List.map_map]
  rfl

/-- Resolving one task changes exactly that task's status lookup. -/
theorem lookupStatus_update (l1 : List TaskState) (ts r : TaskState) (l2 : List TaskState)
    (htask : r.task = ts.task)
    (hnd : ((l1 ++ ts :: l2).map (fun u => u.task.task_name)).Nodup) (nm : String) :
    lookupStatus (l1 ++ r :: l2) nm =
      if nm = ts.task.task_name then some r.status
      else lookupStatus (l1 ++ ts :: l2) nm := by
  induction l1 with
  | nil =>
    simp only [List.nil_append]
    unfold lookupStatus
    by_cases h : nm = ts.task.task_name
    · rw [if_pos h]
      have hpr : (fun u : TaskState => decide (u.task.task_name = nm)) r = true :=
        decide_eq_true (by rw [htask, ← h])
      rw [List.find?_cons_of_pos l2 hpr]
      rfl
    · rw [if_neg h]
      rw [List.find?_cons_of_neg _
        (by simp only [htask, decide_eq_true_eq]; exact fun he => h he.symm)]
      rw [List.find?_cons_of_neg _
        (by simp only [decide_eq_true_eq]; exact fun he => h he.symm)]
  | cons u l1 ih =>
    simp only [List.cons_append, List.map_cons, List.nodup_cons] at hnd
    simp only [List.cons_append]
    unfold lookupStatus
    by_cases hu : u.task.task_name = nm
    · have hmem : ts.task.task_name ∈ (l1 ++ ts :: l2).map (fun v => v.task.task_name) :=
        List.mem_map.mpr ⟨ts, List.mem_append.mpr (Or.inr (List.mem_cons_self ts l2)), rfl⟩
      have hts : ¬ (nm = ts.task.task_name) := by
        intro he
        exact hnd.1 (by rw [hu, he]; exact hmem)
      rw [if_neg hts]
      have hpu : (fun v : TaskState => decide (v.task.task_name = nm)) u = true :=
        decide_eq_true hu
      rw [List.find?_cons_of_pos (l1 ++ r :: l2) hpu]
      rw [List.find?_cons_of_pos (l1 ++ ts :: l2) hpu]
    · rw [List.find?_cons_of_neg _ (by simpa using hu)]
      rw [List.find?_cons_of_neg _ (by simpa using hu)]
      exact ih hnd.2

/-- One dispatch step preserves the scheduler invariant and resolves
exactly one pending task. -/
theorem stepExec_some_inv (wf : Workflow) (out : Outcomes) (sts sts' : List TaskState)
    (hnd : (taskNames wf).Nodup) (hinv : SchedInv wf out sts)
    (h : stepExec out sts = some sts') :
    SchedInv wf out sts' ∧ pendingCount sts' + 1 = pendingCount sts := by
  rcases stepList_some_spec out sts sts sts' h with ⟨l1, ts, l2, heq, hact, heq'⟩
  obtain ⟨hmap, hdom, hsucc, hskip, hrsucc, hrfail⟩ := hinv
  subst heq'
  set r := resolveTask out sts ts with hrdef
  have htask : r.task = ts.task := by
    rw [hrdef]
    unfold resolveTask
    split <;> rfl
  have hpend : ts.status = TStatus.Pending := hact.1
  have hndsts : (sts.map (fun u => u.task.task_name)).Nodup := by
    rw [names_eq wf sts hmap]
    exact hnd
  have hndpos : ((l1 ++ ts :: l2).map (fun u => u.task.task_name)).Nodup := by
    rw [← heq]
    exact hndsts
  have hlk : ∀ nm, lookupStatus (l1 ++ r :: l2) nm =
      if nm = ts.task.task_name then some r.status else lookupStatus sts nm := by
    intro nm
    have hu := lookupStatus_update l1 ts r l2 htask hndpos nm
    rw [← heq] at hu
    exact hu
  have hlkts : lookupStatus sts ts.task.task_name = some TStatus.Pending := by
    rw [← hpend]
    refine lookupStatus_of_mem sts hndsts ts ?_
    rw [heq]
    exact List.mem_append.mpr (Or.inr (List.mem_cons_self ts l2))
  have hA : ∀ td : TaskDef, depsSucceeded sts td →
      depsSucceeded (l1 ++ r :: l2) td := by
    intro td hds d hd
    have hold := hds d hd
    rw [hlk d]
    by_cases hdts : d = ts.task.task_name
    · rw [hdts, hlkts] at hold
      exact absurd hold (by simp)
    · rw [if_neg hdts]
      exact hold
  have hB : ∀ td : TaskDef, someDepFailed sts td →
      someDepFailed (l1 ++ r :: l2) td := by
    intro td hsf
    rcases hsf with ⟨d, hd, hbad⟩
    refine ⟨d, hd, ?_⟩
    have hdts : ¬ (d = ts.task.task_name) := by
      intro he
      rw [he, hlkts] at hbad
      rcases hbad with hbad | hbad <;> exact absurd hbad (by simp)
    rw [hlk d, if_neg hdts]
    exact hbad
  have hrchar : (r.status = TStatus.Skipped ∧ someDepFailed sts ts.task) ∨
      (depsSucceeded sts ts.task ∧
        r.status = (if (runAttempts (out ts.task.task_name) ts.task.retry_count).2
          then TStatus.Succeeded else TStatus.Failed) ∧
        r.attempts = (runAttempts (out ts.task.task_name) ts.task.retry_count).1) := by
    rw [hrdef]
    unfold resolveTask
    by_cases hsdf : someDepFailed sts ts.task
    · rw [if_pos hsdf]
      exact Or.inl ⟨rfl, hsdf⟩
    · rw [if_neg hsdf]
      rcases hact.2 with hc | hc
      · exact absurd hc hsdf
      · exact Or.inr ⟨hc, rfl, rfl⟩
  have hrnp : ¬ (r.status = TStatus.Pending) := by
    rcases hrchar with ⟨hs, _⟩ | ⟨_, hs, _⟩
    · rw [hs]; simp
    · rw [hs]; split <;> simp
  have hmem' : ∀ u ∈ l1 ++ r :: l2, u = r ∨ u ∈ sts := by
    intro u hu
    rcases List.mem_append.mp hu with h1 | h2
    · refine Or.inr ?_
      rw [heq]
      exact List.mem_append.mpr (Or.inl h1)
    · rcases List.mem_cons.mp h2 with rfl | h3
      · exact Or.inl rfl
      · refine Or.inr ?_
        rw [heq]
        exact List.mem_append.mpr (Or.inr (List.mem_cons_of_mem ts h3))
  have hmap' : (l1 ++ r :: l2).map (fun u => u.task) = wf.tasks := by
    rw [← hmap, heq]
    simp [htask]
  refine ⟨⟨hmap', ?_, ?_, ?_, ?_, ?_⟩, ?_⟩
  · intro u hu
    rcases hmem' u hu with rfl | hu'
    · rcases hrchar with ⟨hs, _⟩ | ⟨_, hs, _⟩
      · rw [hs]; simp
      · rw [hs]; split <;> simp
    · exact hdom u hu'
  · intro u hu hsf
    rcases hmem' u hu with rfl | hu'
    · rcases hrchar with ⟨hs, _⟩ | ⟨hds, hs, _⟩
      · rw [hs] at hsf
        rcases hsf with hsf | hsf <;> exact absurd hsf (by simp)
      · rw [htask]
        exact hA ts.task hds
    · exact hA u.task (hsucc u hu' hsf)
  · intro u hu hsk
    rcases hmem' u hu with rfl | hu'
    · rcases hrchar with ⟨_, hsdf⟩ | ⟨_, hs, _⟩
      · rw [htask]
        exact hB ts.task hsdf
      · exfalso
        rw [hs] at hsk
        revert hsk
        split <;> simp
    · exact hB u.task (hskip u hu' hsk)
  · intro u hu hsu
    rcases hmem' u hu with rfl | hu'
    · rcases hrchar with ⟨hs, _⟩ | ⟨_, hs, _⟩
      · rw [hs] at hsu
        exact absurd hsu (by simp)
      · rw [htask]
        rw [hs] at hsu
        cases hb : (runAttempts (out ts.task.task_name) ts.task.retry_count).2 with
        | false => rw [hb] at hsu; simp at hsu
        | true => rfl
    · exact hrsucc u hu' hsu
  · intro u hu hfl
    rcases hmem' u hu with rfl | hu'
    · rcases hrchar with ⟨hs, _⟩ | ⟨_, hs, hatt⟩
      · rw [hs] at hfl
        exact absurd hfl (by simp)
      · rw [htask]
        refine ⟨hatt, ?_⟩
        rw [hs] at hfl
        cases hb : (runAttempts (out ts.task.task_name) ts.task.retry_count).2 with
        | true => rw [hb] at hfl; simp at hfl
        | false => rfl
    · exact hrfail u hu' hfl
  · rw [heq]
    unfold pendingCount
    have hts : decide (ts.status = TStatus.Pending) = true := decide_eq_true hpend
    have hrne : ¬ (decide (r.status = TStatus.Pending) = true) := by
      simp only [decide_eq_true_eq]
      exact hrnp
    rw [List.filter_append, List.filter_append, List.filter_cons, List.filter_cons,
      if_pos hts, if_neg hrne]
    simp only [List.length_append, List.length_cons]
    omega

/-- With a validated definition, a run state with a pending task always has
an actionable task: the coordinator cannot get stuck. -/
theorem stepExec_progress (wf : Workflow) (out : Outcomes) (sts : List TaskState)
    (hnd : (taskNames wf).Nodup) (hres : Resolvable wf) (hacy : Acyclic wf)
    (hinv : SchedInv wf out sts)
    (hp : ∃ ts ∈ sts, ts.status = TStatus.Pending) :
    ∃ sts', stepExec out sts = some sts' := by
  obtain ⟨hmap, hdom, _, _, _, _⟩ := hinv
  have hndsts : (sts.map (fun u => u.task.task_name)).Nodup := by
    rw [names_eq wf sts hmap]
    exact hnd
  cases hs : stepExec out sts with
  | some sts' => exact ⟨sts', rfl⟩
  | none =>
    exfalso
    have hnone := (stepList_none_iff out sts sts).mp hs
    have hcl : ∀ x ∈ (sts.filter
          (fun ts => decide (ts.status = TStatus.Pending))).map
          (fun ts => ts.task.task_name),
        ∃ y, pendingDep sts x = some y ∧
          y ∈ (sts.filter (fun ts => decide (ts.status = TStatus.Pending))).map
            (fun ts => ts.task.task_name) := by
      intro x hx
      rcases List.mem_map.mp hx with ⟨tsx, htsxf, hxname⟩
      have htsxmem : tsx ∈ sts := List.mem_of_mem_filter htsxf
      have htsxp : tsx.status = TStatus.Pending :=
        of_decide_eq_true (List.mem_filter.mp htsxf).2
      have hfind : sts.find? (fun u => decide (u.task.task_name = x)) = some tsx := by
        rw [← hxname]
        exact find?_name_of_mem sts hndsts tsx htsxmem
      have hnact : ¬ actionable sts tsx := hnone tsx htsxmem
      have hnsdf : ¬ someDepFailed sts tsx.task := by
        intro hc
        exact hnact ⟨htsxp, Or.inl hc⟩
      have hnds : ¬ depsSucceeded sts tsx.task := by
        intro hc
        exact hnact ⟨htsxp, Or.inr hc⟩
      have hnds' : ¬ ∀ d ∈ tsx.task.dependencies,
          lookupStatus sts d = some TStatus.Succeeded := hnds
      push_neg at hnds'
      rcases hnds' with ⟨d0, hd0, hd0ns⟩
      have htaskmem : tsx.task ∈ wf.tasks := by
        rw [← hmap]
        exact List.mem_map.mpr ⟨tsx, htsxmem, rfl⟩
      have hd0names : d0 ∈ sts.map (fun u => u.task.task_name) := by
        rw [names_eq wf sts hmap]
        exact hres tsx.task htaskmem d0 hd0
      rcases List.mem_map.mp hd0names with ⟨u0, hu0mem, hu0name⟩
      have hlku0 : lookupStatus sts d0 = some u0.status := by
        rw [← hu0name]
        exact lookupStatus_of_mem sts hndsts u0 hu0mem
      have hu0p : u0.status = TStatus.Pending := by
        rcases hdom u0 hu0mem with hP | hS | hF | hK
        · exact hP
        · exact absurd (by rw [hlku0, hS]) hd0ns
        · exact absurd ⟨d0, hd0, Or.inl (by rw [hlku0, hF])⟩ hnsdf
        · exact absurd ⟨d0, hd0, Or.inr (by rw [hlku0, hK])⟩ hnsdf
      have hd0p : lookupStatus sts d0 = some TStatus.Pending := by
        rw [hlku0, hu0p]
      have hdeps : (tsx.task.dependencies.find?
          (fun d => decide (lookupStatus sts d = some TStatus.Pending))).isSome :=
        List.find?_isSome.mpr ⟨d0, hd0, decide_eq_true hd0p⟩
      rcases Option.isSome_iff_exists.mp hdeps with ⟨d, hfd⟩
      have hdp := List.find?_some hfd
      have hdpend : lookupStatus sts d = some TStatus.Pending := of_decide_eq_true hdp
      refine ⟨d, ?_, ?_⟩
      · unfold pendingDep
        rw [hfind]
        exact hfd
      · rcases lookupStatus_some sts d TStatus.Pending hdpend with ⟨ud, hudmem, hudname, hudp⟩
        refine List.mem_map.mpr ⟨ud, ?_, hudname⟩
        exact List.mem_filter.mpr ⟨hudmem, decide_eq_true hudp⟩
    have hedge : ∀ x y, pendingDep sts x = some y → DepRel wf x y := by
      intro x y hxy
      unfold pendingDep at hxy
      cases hft : sts.find? (fun u => decide (u.task.task_name = x)) with
      | none => rw [hft] at hxy; exact absurd hxy (by simp)
      | some u =>
        rw [hft] at hxy
        have hpu := List.find?_some hft
        refine ⟨u.task, ?_, of_decide_eq_true hpu, List.mem_of_find?_eq_some hxy⟩
        rw [← hmap]
        exact List.mem_map.mpr ⟨u, List.mem_of_find?_eq_some hft, rfl⟩
    rcases hp with ⟨tsp, htspmem, htspp⟩
    have hx0 : tsp.task.task_name ∈ (sts.filter
        (fun ts => decide (ts.status = TStatus.Pending))).map
        (fun ts => ts.task.task_name) :=
      List.mem_map.mpr ⟨tsp, List.mem_filter.mpr ⟨htspmem, decide_eq_true htspp⟩, rfl⟩
    rcases cycle_of_closure _ (pendingDep sts) hedge hcl tsp.task.task_name hx0 with ⟨c, hc⟩
    exact hacy c hc

/-- The dispatch loop preserves the scheduler invariant and, given enough
fuel, drives every task to a terminal status. -/
theorem runSched_inv (wf : Workflow) (out : Outcomes)
    (hnd : (taskNames wf).Nodup) (hres : Resolvable wf) (hacy : Acyclic wf) :
    ∀ (fuel : Nat) (sts : List TaskState), SchedInv wf out sts →
      pendingCount sts ≤ fuel →
      SchedInv wf out (runSched out fuel sts) ∧
      pendingCount (runSched out fuel sts) = 0 := by
  intro fuel
  induction fuel with
  | zero =>
    intro sts hinv hlen
    exact ⟨hinv, Nat.le_zero.mp hlen⟩
  | succ fu ih =>
    intro sts hinv hlen
    by_cases hp : ∃ ts ∈ sts, ts.status = TStatus.Pending
    · rcases stepExec_progress wf out sts hnd hres hacy hinv hp with ⟨sts', hs⟩
      rcases stepExec_some_inv wf out sts sts' hnd hinv hs with ⟨hinv', hcnt⟩
      have hrun : runSched out (fu + 1) sts = runSched out fu sts' := by
        conv_lhs => rw [runSched]
        rw [hs]
      rw [hrun]
      exact ih sts' hinv' (by omega)
    · have h0 : pendingCount sts = 0 := by
        unfold pendingCount
        rw [List.length_eq_zero, List.filter_eq_nil_iff]
        intro u hu
        simp only [decide_eq_true_eq]
        intro hup
        exact hp ⟨u, hu, hup⟩
      have hsnone : stepExec out sts = none := by
        rw [show stepExec out sts = stepList out sts sts from rfl,
          stepList_none_iff out sts sts]
        intro u hu hac
        exact hp ⟨u, hu, hac.1⟩
      have hrun : runSched out (fu + 1) sts = sts := by
        conv_lhs => rw [runSched]
        rw [hsnone]
      rw [hrun]
      exact ⟨hinv, h0⟩

/-- The initial run state satisfies the scheduler invariant. -/
theorem initStates_inv (wf : Workflow) (out : Outcomes) :
    SchedInv wf out (initStates wf) := by
  have hstat : ∀ ts ∈ initStates wf, ts.status = TStatus.Pending := by
    intro ts hts
    rcases List.mem_map.mp hts with ⟨t, _, rfl⟩
    rfl
  refine ⟨?_, ?_, ?_, ?_, ?_, ?_⟩
  · unfold initStates
    rw [List.map_map]
    exact List.map_id' wf.tasks
  · intro ts hts
    exact Or.inl (hstat ts hts)
  · intro ts hts hsf
    rcases hsf with h | h <;> simp [hstat ts hts] at h
  · intro ts hts h
    simp [hstat ts hts] at h
  · intro ts hts h
    simp [hstat ts hts] at h
  · intro ts hts h
    simp [hstat ts hts] at h

/-- The number of initially pending tasks is at most the task count. -/
theorem pendingCount_init_le (wf : Workflow) :
    pendingCount (initStates wf) ≤ wf.tasks.length := by
  unfold pendingCount
  calc ((initStates wf).filter
        (fun ts => decide (ts.status = TStatus.Pending))).length ≤
      (initStates wf).length := List.length_filter_le _ _
    _ = wf.tasks.length := by simp [initStates]

/-- C4: once an execution of a validated definition reaches its terminal
state, every task has a terminal status (`Succeeded`, `Failed` or
`Skipped`) — none is left `Pending`, `Ready` or `Running` — and the
execution result's task result list covers the full task set. -/
theorem c4_terminal_coverage (wf : Workflow) (out : Outcomes)
    (hnd : (taskNames wf).Nodup) (hval : validate_dependencies wf = Except.ok ()) :
    (∀ ts ∈ execWorkflow wf out, ts.status = TStatus.Succeeded ∨
      ts.status = TStatus.Failed ∨ ts.status = TStatus.Skipped) ∧
    (execWorkflow wf out).map (fun ts => ts.task) = wf.tasks ∧
    (mkResult (execWorkflow wf out)).task_results.map (fun tr => tr.task_name) =
      taskNames wf := by
  have hres := resolvable_of_validate_ok wf hval
  have hacy := acyclic_of_validate_ok wf hres hnd hval
  have hrun := runSched_inv wf out hnd hres hacy wf.tasks.length (initStates wf)
    (initStates_inv wf out) (pendingCount_init_le wf)
  have hinv : SchedInv wf out (execWorkflow wf out) := hrun.1
  have h0 : pendingCount (execWorkflow wf out) = 0 := hrun.2
  obtain ⟨hmap, hdom, _, _, _, _⟩ := hinv
  refine ⟨?_, hmap, ?_⟩
  · intro ts hts
    rcases hdom ts hts with hP | hS | hF | hK
    · exfalso
      unfold pendingCount at h0
      rw [List.length_eq_zero, List.filter_eq_nil_iff] at h0
      exact h0 ts hts (decide_eq_true hP)
    · exact Or.inl hS
    · exact Or.inr (Or.inl hF)
    · exact Or.inr (Or.inr hK)
  · unfold mkResult
    rw [List.map_map]
    exact names_eq wf (execWorkflow wf out) hmap

/-- Witness for C4: the diamond definition run under the all-failing
oracle reaches a terminal state whose task result list covers the full
task set. -/
theorem c4_terminal_coverage_witness :
    (taskNames wfDiamond).Nodup ∧
    (execWorkflow wfDiamond outNone).map (fun ts => ts.task) = wfDiamond.tasks :=
  ⟨by decide, (c4_terminal_coverage wfDiamond outNone (by decide) rfl).2.1⟩

/-- In a terminal run state, a task one dependency edge above a failed or
skipped task is skipped. -/
theorem final_dep_bad (wf : Workflow) (out : Outcomes) (final : List TaskState)
    (hnd : (taskNames wf).Nodup) (hinv : SchedInv wf out final)
    (h0 : pendingCount final = 0) (y x : String)
    (hedge : DepRel wf y x)
    (hx : lookupStatus final x = some TStatus.Failed ∨
      lookupStatus final x = some TStatus.Skipped) :
    lookupStatus final y = some TStatus.Skipped := by
  obtain ⟨hmap, hdom, hsucc, hskip, _, _⟩ := hinv
  have hndsts : (final.map (fun u => u.task.task_name)).Nodup := by
    rw [names_eq wf final hmap]
    exact hnd
  rcases hedge with ⟨t, ht, htname, hxdep⟩
  have htm : t ∈ final.map (fun u => u.task) := by
    rw [hmap]
    exact ht
  rcases List.mem_map.mp htm with ⟨u, humem, hutask⟩
  have hlku : lookupStatus final y = some u.status := by
    rw [← htname, ← hutask]
    exact lookupStatus_of_mem final hndsts u humem
  rcases hdom u humem with hP | hS | hF | hK
  · exfalso
    unfold pendingCount at h0
    rw [List.length_eq_zero, List.filter_eq_nil_iff] at h0
    exact h0 u humem (decide_eq_true hP)
  · exfalso
    have hds := hsucc u humem (Or.inl hS)
    have hxs := hds x (by rw [hutask]; exact hxdep)
    rcases hx with hx | hx <;> (rw [hxs] at hx; exact absurd hx (by simp))
  · exfalso
    have hds := hsucc u humem (Or.inr hF)
    have hxs := hds x (by rw [hutask]; exact hxdep)
    rcases hx with hx | hx <;> (rw [hxs] at hx; exact absurd hx (by simp))
  · rw [hlku, hK]

/-- C2: under the default failure policy, if a task of a validated
definition ends `Failed` after its retries are exhausted, every task that
transitively depends on it ends `Skipped`, and the execution's overall
result is `Failed`. -/
theorem c2_failure_propagation (wf : Workflow) (out : Outcomes)
    (hnd : (taskNames wf).Nodup) (hval : validate_dependencies wf = Except.ok ())
    (x y : String)
    (hfail : lookupStatus (execWorkflow wf out) x = some TStatus.Failed)
    (hdep : Relation.TransGen (DepRel wf) y x) :
    lookupStatus (execWorkflow wf out) y = some TStatus.Skipped ∧
    overallResult (execWorkflow wf out) = WStatus.Failed := by
  have hres := resolvable_of_validate_ok wf hval
  have hacy := acyclic_of_validate_ok wf hres hnd hval
  have hrun := runSched_inv wf out hnd hres hacy wf.tasks.length (initStates wf)
    (initStates_inv wf out) (pendingCount_init_le wf)
  have hinv : SchedInv wf out (execWorkflow wf out) := hrun.1
  have h0 : pendingCount (execWorkflow wf out) = 0 := hrun.2
  constructor
  · induction hdep using Relation.TransGen.head_induction_on with
    | base h =>
      exact final_dep_bad wf out (execWorkflow wf out) hnd hinv h0 _ x h (Or.inl hfail)
    | ih h' h hP =>
      exact final_dep_bad wf out (execWorkflow wf out) hnd hinv h0 _ _ h' (Or.inr hP)
  · rcases lookupStatus_some (execWorkflow wf out) x TStatus.Failed hfail
      with ⟨u, humem, _, hust⟩
    unfold overallResult
    have hnall : ¬ ∀ ts ∈ execWorkflow wf out, ts.status = TStatus.Succeeded := by
      intro hall
      have hq := hall u humem
      rw [hust] at hq
      exact absurd hq (by simp)
    rw [if_neg hnall]

/-- Witness for C2 at the spec's scenario: in the diamond definition with
task `A` failing permanently, `B`, `C` and `D2` all end `Skipped` and the
execution ends `Failed`. -/
theorem c2_failure_propagation_witness :
    lookupStatus (execWorkflow wfDiamond outNone) "B" = some TStatus.Skipped ∧
    lookupStatus (execWorkflow wfDiamond outNone) "C" = some TStatus.Skipped ∧
    lookupStatus (execWorkflow wfDiamond outNone) "D2" = some TStatus.Skipped ∧
    overallResult (execWorkflow wfDiamond outNone) = WStatus.Failed := by
  have hfail : lookupStatus (execWorkflow wfDiamond outNone) "A" =
      some TStatus.Failed := by decide
  refine ⟨?_, ?_, ?_, ?_⟩
  · exact (c2_failure_propagation wfDiamond outNone (by decide) rfl "A" "B" hfail
      (Relation.TransGen.single (by decide))).1
  · exact (c2_failure_propagation wfDiamond outNone (by decide) rfl "A" "C" hfail
      (Relation.TransGen.single (by decide))).1
  · exact (c2_failure_propagation wfDiamond outNone (by decide) rfl "A" "D2" hfail
      (Relation.TransGen.head (b := "B") (by decide)
        (Relation.TransGen.single (by decide)))).1
  · exact (c2_failure_propagation wfDiamond outNone (by decide) rfl "A" "B" hfail
      (Relation.TransGen.single (by decide))).2

/-- C3: a task of a validated definition whose work function fails on
every attempt (timeouts included, as failed attempts) and whose
dependencies all succeeded is attempted exactly `retry_count + 1` times
and recorded with terminal status `Failed`, the attempts reflected in the
recorded attempt count. -/
theorem c3_retry_exhaustion (wf : Workflow) (out : Outcomes)
    (hnd : (taskNames wf).Nodup) (hval : validate_dependencies wf = Except.ok ())
    (t : TaskDef) (ht : t ∈ wf.tasks)
    (hfail : ∀ i, out t.task_name i = false)
    (hdeps : depsSucceeded (execWorkflow wf out) t) :
    runAttempts (out t.task_name) t.retry_count = (t.retry_count + 1, false) ∧
    ∃ ts ∈ execWorkflow wf out, ts.task = t ∧ ts.status = TStatus.Failed ∧
      ts.attempts = t.retry_count + 1 := by
  have hra := runAttempts_allFail (out t.task_name) hfail t.retry_count
  have hres := resolvable_of_validate_ok wf hval
  have hacy := acyclic_of_validate_ok wf hres hnd hval
  have hrun := runSched_inv wf out hnd hres hacy wf.tasks.length (initStates wf)
    (initStates_inv wf out) (pendingCount_init_le wf)
  rw [show runSched out wf.tasks.length (initStates wf) = execWorkflow wf out
    from rfl] at hrun
  have h0 : pendingCount (execWorkflow wf out) = 0 := hrun.2
  obtain ⟨hmap, hdom, _, hskip, hrsucc, hrfail⟩ := hrun.1
  refine ⟨hra, ?_⟩
  have htm : t ∈ (execWorkflow wf out).map (fun u => u.task) := by
    rw [hmap]
    exact ht
  rcases List.mem_map.mp htm with ⟨u, humem, hutask⟩
  have hF : u.status = TStatus.Failed := by
    rcases hdom u humem with hP | hS | hF | hK
    · exfalso
      unfold pendingCount at h0
      rw [List.length_eq_zero, List.filter_eq_nil_iff] at h0
      exact h0 u humem (decide_eq_true hP)
    · exfalso
      have hq := hrsucc u humem hS
      rw [hutask, hra] at hq
      exact absurd hq (by simp)
    · exact hF
    · exfalso
      rcases hskip u humem hK with ⟨d, hd, hbad⟩
      rw [hutask] at hd
      have hds := hdeps d hd
      rcases hbad with hbad | hbad <;> (rw [hds] at hbad; exact absurd hbad (by simp))
  have hatt := (hrfail u humem hF).1
  rw [hutask, hra] at hatt
  exact ⟨u, humem, hutask, hF, hatt⟩

/-- Witness for C3: the single-task definition with `retry_count` 2 under
the all-failing oracle records the task `Failed` after exactly 3
attempts. -/
theorem c3_retry_exhaustion_witness :
    runAttempts (outNone "A") (mkTask "A" [] 2).retry_count =
      ((mkTask "A" [] 2).retry_count + 1, false) ∧
    ∃ ts ∈ execWorkflow wfSingle outNone, ts.task = mkTask "A" [] 2 ∧
      ts.status = TStatus.Failed ∧ ts.attempts = (mkTask "A" [] 2).retry_count + 1 :=
  c3_retry_exhaustion wfSingle outNone (by decide) rfl (mkTask "A" [] 2)
    (by decide) (fun i => rfl) (by decide)

end Rosix
